import Mathlib

/-!
# Verification of the vjson encoder/decoder

A shallow embedding of the `vjson` package (a minimal JSON encoder/decoder for
a closed value set: null, bool, float64, string, `[]interface`, and
`map[string]interface`, plus a `RawMessage` passthrough type).

Byte strings are modelled as `List Nat` (each element a byte value < 256).
Machine floats are abstracted by a `FloatModel` parameter: the encoder and
decoder only observe a float through the operations `strconv`/`math` provide
(NaN/Inf classification, the two magnitude cutoffs, fixed/exponential
formatting, and parsing), so the model carries exactly those observations.

Layers, leaf to root, mirroring the Go sources:
* UTF-8 encode/decode (`unicode/utf8`, used by the string codec);
* the string codec `encodeString` and the float formatter (unnamed source
  file, borrowed from `encoding/json`);
* the value encoder `marshalTo`/`marshal` (vjson.go);
* the tokenizer `readToken` — not present under the provided sources, so it
  is modelled from the spec (sections 4.1 and 4.3);
* the value decoder `unmarshalNext`/`unmarshal` (vjson.go).
-/

/-! ## UTF-8 layer (model of `unicode/utf8` as used by the string codec) -/

/-- A byte is a UTF-8 continuation byte (`0x80..0xBF`). -/
def utf8cont (b : Nat) : Bool := 128 ≤ b && b ≤ 191

/-- Second-byte acceptance for a three-byte sequence, per Go's
`utf8.acceptRanges`: lead `0xE0` requires `0xA0..0xBF`, lead `0xED` requires
`0x80..0x9F` (excluding surrogates), other leads require a plain
continuation byte. -/
def accept3 (b b1 : Nat) : Bool :=
  if b = 0xE0 then 0xA0 ≤ b1 && b1 ≤ 0xBF
  else if b = 0xED then 0x80 ≤ b1 && b1 ≤ 0x9F
  else utf8cont b1

/-- Second-byte acceptance for a four-byte sequence, per Go's
`utf8.acceptRanges`: lead `0xF0` requires `0x90..0xBF`, lead `0xF4` requires
`0x80..0x8F` (capping at U+10FFFF), other leads a plain continuation. -/
def accept4 (b b1 : Nat) : Bool :=
  if b = 0xF0 then 0x90 ≤ b1 && b1 ≤ 0xBF
  else if b = 0xF4 then 0x80 ≤ b1 && b1 ≤ 0x8F
  else utf8cont b1

/-- Model of `utf8.DecodeRune`/`DecodeRuneInString` on a non-empty input
split as first byte `b` and remainder `rest`. Returns the decoded code point
and the byte size consumed; on any malformed or truncated sequence returns
`(0xFFFD, 1)` exactly as Go returns `(RuneError, 1)`. -/
def decodeRune (b : Nat) (rest : List Nat) : Nat × Nat :=
  if b < 0x80 then (b, 1)
  else if 0xC2 ≤ b && b ≤ 0xDF then
    match rest with
    | b1 :: _ =>
      if utf8cont b1 then ((b - 0xC0) * 64 + (b1 - 0x80), 2) else (0xFFFD, 1)
    | _ => (0xFFFD, 1)
  else if 0xE0 ≤ b && b ≤ 0xEF then
    match rest with
    | b1 :: b2 :: _ =>
      if accept3 b b1 && utf8cont b2 then
        ((b - 0xE0) * 4096 + (b1 - 0x80) * 64 + (b2 - 0x80), 3)
      else (0xFFFD, 1)
    | _ => (0xFFFD, 1)
  else if 0xF0 ≤ b && b ≤ 0xF4 then
    match rest with
    | b1 :: b2 :: b3 :: _ =>
      if accept4 b b1 && utf8cont b2 && utf8cont b3 then
        ((b - 0xF0) * 262144 + (b1 - 0x80) * 4096 + (b2 - 0x80) * 64 + (b3 - 0x80), 4)
      else (0xFFFD, 1)
    | _ => (0xFFFD, 1)
  else (0xFFFD, 1)

/-- `decodeRune` on a list (empty input is never reached by the codec). -/
def decodeRuneL : List Nat → Nat × Nat
  | [] => (0xFFFD, 1)
  | b :: rest => decodeRune b rest

/-- UTF-8 encoding of a Unicode scalar value, as `utf8.EncodeRune` /
`utf8.AppendRune` produce for valid scalar input. -/
def encodeChar (c : Nat) : List Nat :=
  if c < 0x80 then [c]
  else if c < 0x800 then [0xC0 + c / 64, 0x80 + c % 64]
  else if c < 0x10000 then [0xE0 + c / 4096, 0x80 + c / 64 % 64, 0x80 + c % 64]
  else [0xF0 + c / 262144, 0x80 + c / 4096 % 64, 0x80 + c / 64 % 64, 0x80 + c % 64]

/-- `c` is a Unicode scalar value (a code point that is not a surrogate and
is at most U+10FFFF). -/
def scalarB (c : Nat) : Bool := c < 0xD800 || (0xDFFF < c && c < 0x110000)

/-- A byte sequence is valid UTF-8: the concatenation of encodings of
Unicode scalar values. -/
inductive ValidUtf8 : List Nat → Prop
  | nil : ValidUtf8 []
  | ch (c : Nat) (hc : scalarB c = true) (s : List Nat) (hs : ValidUtf8 s) :
      ValidUtf8 (encodeChar c ++ s)

/-- Byte list of a Lean string literal, via the UTF-8 encoder (convenience
for stating concrete examples). -/
def sBytes (s : String) : List Nat := s.data.flatMap (fun c => encodeChar c.toNat)

theorem encodeChar_length_pos (c : Nat) : 0 < (encodeChar c).length := by
  unfold encodeChar
  split <;> simp_all
  split <;> simp_all
  split <;> simp_all

/-- Decoding the UTF-8 encoding of a scalar value recovers the value and its
encoded size, for any continuation of the stream. -/
theorem decodeRuneL_encodeChar (c : Nat) (hc : scalarB c = true) (rest : List Nat) :
    decodeRuneL (encodeChar c ++ rest) = (c, (encodeChar c).length) := by
  have hc' : c < 0xD800 ∨ (0xDFFF < c ∧ c < 0x110000) := by
    simpa [scalarB, Bool.or_eq_true, Bool.and_eq_true, decide_eq_true_eq] using hc
  clear hc
  by_cases h1 : c < 0x80
  · simp only [encodeChar, if_pos h1, List.cons_append, List.nil_append,
      decodeRuneL, decodeRune, List.length_cons, List.length_nil]
  · by_cases h2 : c < 0x800
    · simp only [encodeChar, if_neg h1, if_pos h2, List.cons_append,
        List.nil_append, decodeRuneL, decodeRune, utf8cont,
        List.length_cons, List.length_nil]
      split_ifs with g1 g2 g3 <;>
        simp only [Bool.and_eq_true, decide_eq_true_eq, Prod.mk.injEq, and_true] at * <;>
        omega
    · by_cases h3 : c < 0x10000
      · simp only [encodeChar, if_neg h1, if_neg h2, if_pos h3,
          List.cons_append, List.nil_append, decodeRuneL, decodeRune,
          accept3, utf8cont, List.length_cons, List.length_nil]
        split_ifs <;>
          simp only [Bool.and_eq_true, decide_eq_true_eq, Prod.mk.injEq, and_true] at * <;>
          omega
      · simp only [encodeChar, if_neg h1, if_neg h2, if_neg h3,
          List.cons_append, List.nil_append, decodeRuneL, decodeRune,
          accept4, utf8cont, List.length_cons, List.length_nil]
        split_ifs <;>
          simp only [Bool.and_eq_true, decide_eq_true_eq, Prod.mk.injEq, and_true] at * <;>
          omega

/-! ## String codec (model of `encodeString` from the unnamed source file) -/

/-- Modelled from the spec: the escape-decision lookup table `safeSet` is
referenced by `encodeString` but its definition is not among the provided
sources. Per section 4.4 (and the comments inside `encodeString`), a byte is
safe without HTML escaping iff it is ASCII, not a control byte below `0x20`,
and not `"` or `\`. -/
def safeSet (b : Nat) : Bool := b < 128 && 32 ≤ b && b ≠ 34 && b ≠ 92

/-- Modelled from the spec: the `htmlSafeSet` table additionally marks `<`,
`>`, `&` unsafe (section 4.4: when `htmlSafe` is set they are escaped). -/
def htmlSafeSet (b : Nat) : Bool := safeSet b && b ≠ 60 && b ≠ 62 && b ≠ 38

/-- The lowercase hex digit table `hex = "0123456789abcdef"`, as byte
values. -/
def hexDig (n : Nat) : Nat := if n < 10 then 48 + n else 87 + n

/-- The escape emitted for an unsafe ASCII byte: the switch in
`encodeString` (backslash-quote and backslash-backslash, the short escapes
for newline, carriage return and tab, and `\u00XX` otherwise). -/
def escAscii (b : Nat) : List Nat :=
  if b = 92 || b = 34 then [92, b]
  else if b = 10 then [92, 110]
  else if b = 13 then [92, 114]
  else if b = 9 then [92, 116]
  else [92, 117, 48, 48, hexDig (b / 16), hexDig (b % 16)]

/-- The bytes of the literal text `�` written for an invalid UTF-8
byte. -/
def fffdBytes : List Nat := [92, 117, 102, 102, 102, 100]

/-- The bytes of `\u202X` written for U+2028/U+2029. -/
def escU202 (c : Nat) : List Nat := [92, 117, 50, 48, 50, hexDig (c % 16)]

/-- The body loop of `encodeString`, one byte (or one decoded rune) at a
time. The Go original batches runs of safe bytes through a `start` index and
a single `w.Write(s[start:i])`; emitting each safe byte as it is passed
produces the identical output byte sequence, so the run buffering is
flattened here. -/
def encStrLoop (esc : Bool) : List Nat → List Nat
  | [] => []
  | b :: rest =>
    if b < 0x80 then
      if htmlSafeSet b || (!esc && safeSet b) then b :: encStrLoop esc rest
      else escAscii b ++ encStrLoop esc rest
    else
      let p := decodeRune b rest
      if p.1 = 0xFFFD && p.2 = 1 then
        fffdBytes ++ encStrLoop esc rest
      else if p.1 = 0x2028 || p.1 = 0x2029 then
        escU202 p.1 ++ encStrLoop esc (rest.drop (p.2 - 1))
      else
        (b :: rest).take p.2 ++ encStrLoop esc (rest.drop (p.2 - 1))
termination_by s => s.length
decreasing_by
  all_goals simp only [List.length_cons, List.length_drop] <;> omega

/-- Model of `encodeString(w, s, escapeHTML)`: an opening quote, the escaped
body, a closing quote. The sink is modelled as a pure byte accumulator, so
the only error path of the Go function (a sink write failure) cannot occur
here and the result is the full output. -/
def encodeString (s : List Nat) (esc : Bool) : List Nat :=
  34 :: encStrLoop esc s ++ [34]

/-- Per-character escaping map as the spec states it (section 4.4): control
bytes below `0x20` as `\u00XX` except tab, newline and carriage return which
use the short escapes; backslash and quote with a backslash; U+2028 and
U+2029 always as ` `/` `; `<`, `>`, `&` as `<`, `>`,
`&` only when `htmlSafe` is set; every other character emitted
unescaped (as its UTF-8 bytes). Stated from the spec wording for comparison
with the code's `encStrLoop`. -/
def escCharSpec (esc : Bool) (c : Nat) : List Nat :=
  if c = 9 then [92, 116]
  else if c = 10 then [92, 110]
  else if c = 13 then [92, 114]
  else if c < 32 then [92, 117, 48, 48, hexDig (c / 16), hexDig (c % 16)]
  else if c = 34 || c = 92 then [92, c]
  else if esc && (c = 60 || c = 62 || c = 38) then
    [92, 117, 48, 48, hexDig (c / 16), hexDig (c % 16)]
  else if c = 0x2028 || c = 0x2029 then escU202 c
  else encodeChar c

theorem encodeChar_ascii (c : Nat) (h : c < 0x80) : encodeChar c = [c] := by
  simp [encodeChar, h]

/-- One step of the `encodeString` loop over a scalar character: the code
emits exactly the spec's per-character escape and moves on. -/
theorem encStrLoop_char (esc : Bool) (c : Nat) (hc : scalarB c = true)
    (s : List Nat) :
    encStrLoop esc (encodeChar c ++ s) = escCharSpec esc c ++ encStrLoop esc s := by
  by_cases h1 : c < 0x80
  · rw [encodeChar_ascii c h1]
    rw [List.cons_append, List.nil_append]
    cases esc <;> interval_cases c <;>
      simp [encStrLoop, escCharSpec, escAscii, safeSet, htmlSafeSet,
        encodeChar, hexDig, escU202]
  · -- multi-byte character: the loop decodes the rune we just encoded
    obtain ⟨b, tail, hbt, hb⟩ :
        ∃ b tail, encodeChar c = b :: tail ∧ ¬ b < 0x80 := by
      unfold encodeChar
      split
      · omega
      · split
        · exact ⟨_, _, rfl, by omega⟩
        · split
          · exact ⟨_, _, rfl, by omega⟩
          · exact ⟨_, _, rfl, by omega⟩
    have hdec := decodeRuneL_encodeChar c hc s
    rw [hbt] at hdec
    simp only [List.cons_append, decodeRuneL, List.length_cons] at hdec
    have hlen2 : 1 ≤ tail.length := by
      by_contra hcon
      have ht0 : tail = [] := by
        cases tail with
        | nil => rfl
        | cons x xs => simp at hcon
      rw [ht0] at hbt
      have : (encodeChar c).length = 1 := by rw [hbt]; rfl
      unfold encodeChar at this
      split at this
      · omega
      · split at this
        · simp at this
        · split at this <;> simp at this
    have ht : (b :: (tail ++ s)).take (tail.length + 1) = b :: tail := by
      rw [List.take_succ_cons, List.take_left' rfl]
    have hd : (tail ++ s).drop (tail.length + 1 - 1) = s := by
      rw [Nat.add_sub_cancel, List.drop_left' rfl]
    rw [hbt, List.cons_append, encStrLoop]
    rw [if_neg hb]
    simp only [hdec, ht, hd]
    by_cases h2 : c = 0x2028 ∨ c = 0x2029
    · rw [if_neg (by simp only [Bool.and_eq_true, decide_eq_true_eq]; omega), if_pos (by simpa using h2)]
      have : escCharSpec esc c = escU202 c := by
        rcases h2 with h | h <;> subst h <;> cases esc <;> rfl
      rw [this]
    · rw [if_neg (by simp only [Bool.and_eq_true, decide_eq_true_eq]; omega), if_neg (by simpa using h2)]
      have : escCharSpec esc c = encodeChar c := by
        unfold escCharSpec
        rw [if_neg (by omega), if_neg (by omega), if_neg (by omega),
          if_neg (by omega), if_neg (by simp; omega),
          if_neg (by cases esc <;> simp <;> omega),
          if_neg (by simpa using h2)]
      rw [this, hbt]

/-! ## Float formatter (model of `floatEncoder.encode`) -/

/-- Abstraction of a machine float at a fixed bit width (32 or 64). The
formatter and parser observe a float value only through these operations:
NaN/infinity classification (`math.IsNaN`, `math.IsInf`), the zero test
(`abs != 0`), the two magnitude cutoffs `abs < 1e-6` and `abs >= 1e21`
evaluated at the operand's own bit width, the two `strconv.AppendFloat`
renderings with shortest precision (`'f'` and `'e'` format), and
`strconv.ParseFloat`. IEEE-754 arithmetic itself is outside the shallow
embedding, so those observations are the model's parameters. -/
structure FloatModel where
  F : Type
  isNaN : F → Bool
  isInf : F → Bool
  isZero : F → Bool
  lowCut : F → Bool
  highCut : F → Bool
  fmtFixed : F → List Nat
  fmtExp : F → List Nat
  parse : List Nat → Option F

/-- The exponent cleanup in `floatEncoder.encode`: when the output ends in
`e-0X` the leading zero of the exponent is dropped (`e-09` becomes `e-9`).
Longer exponents do not match the pattern and are untouched. -/
def stripExpZero (b : List Nat) : List Nat :=
  match b.reverse with
  | d :: z :: m :: e :: rest =>
      if e = 101 && m = 45 && z = 48 then (d :: m :: e :: rest).reverse else b
  | _ => b

/-- Tokens, as the spec's data model states them (section 3): null, bool,
number carrying its raw unparsed decimal text, string carrying already
unescaped content bytes, and a structural delimiter. In the Go source the
token is an `interface` value (`nil`, `bool`, `Number`, `string`, `Delim`). -/
inductive Token where
  | tnull
  | tbool (b : Bool)
  | tnum (text : List Nat)
  | tstr (s : List Nat)
  | tdelim (d : Nat)
deriving DecidableEq

/-- The widths of the fixed-size integer cases of `marshalTo`'s type switch
(int, int8..int64, uint, uint8..uint64). All ten cases format identically
(via `strconv.AppendInt`/`AppendUint`), and none of them appears as a case
in `unmarshalNext`'s destination type switch. -/
inductive IntKind where
  | gi | gi8 | gi16 | gi32 | gi64 | gu | gu8 | gu16 | gu32 | gu64
deriving DecidableEq

/-- Decode destinations: the cases of `unmarshalNext`'s type switch on
`vin`. `generic` is `*interface`, the five typed slots follow, and
`intSlot k` stands for a pointer to a fixed-width integer type — those
cases are commented out in the source, so they fall to the `default`
branch. -/
inductive Dest where
  | generic
  | boolSlot
  | floatSlot
  | stringSlot
  | listSlot
  | mapSlot
  | intSlot (k : IntKind)
deriving DecidableEq

/-- Error values of the model, one per error site in the sources (message
text elided; the constructor carries the data the Go message formats). -/
inductive Err where
  | ioEOF
  | badTok (b : Nat)
  | untermStr
  | untermNum
  | badEscape
  | unpairedSurrogate
  | scanMismatch (tok : Token) (d : Dest)
  | unknownDest (d : Dest)
  | unknownVal
  | floatNaNInf
  | badNum
  | keyNotString (tok : Token)
  | modelPanic
  | outOfFuel
  | notModelled
deriving DecidableEq

/-- Model of `floatEncoder.encode`: NaN and the infinities are rejected
before anything is emitted; otherwise the value is rendered in fixed or
exponential shortest form per the magnitude cutoffs, and a single-digit
negative exponent's leading zero is stripped. The sink is pure, so the
result is the full output (the error return carries no partial bytes,
matching the Go code, which writes only once at the end). -/
def floatEncode (FM : FloatModel) (f : FM.F) : Except Err (List Nat) :=
  if FM.isInf f || FM.isNaN f then .error .floatNaNInf
  else
    let fmtE := !FM.isZero f && (FM.lowCut f || FM.highCut f)
    let b := if fmtE then FM.fmtExp f else FM.fmtFixed f
    .ok (if fmtE then stripExpZero b else b)

/-! ## Value model and the encoder `marshalTo` (vjson.go) -/

/-- The closed value set of the package: the types accepted by
`marshalTo`'s type switch. `vnil` is the nil interface; `vlist none` /
`vmap none` are a nil slice / nil map (distinct from empty ones); `vraw`
is a `RawMessage` (with `none` as a nil `RawMessage`). The ten fixed-width
integer cases of the switch collapse into `vint k i` since all format
identically. Go map iteration order is unspecified; the model fixes the
association-list order as the iteration order actually taken. -/
inductive GoVal (F : Type) where
  | vnil
  | vbool (b : Bool)
  | vfloat (f : F)
  | vint (k : IntKind) (i : Int)
  | vstring (s : List Nat)
  | vlist (l : Option (List (GoVal F)))
  | vmap (m : Option (List (List Nat × GoVal F)))
  | vraw (b : Option (List Nat))

/-- Bytes of the literal `null`. -/
def nullBytes : List Nat := [110, 117, 108, 108]

/-- Bytes of the literal `true`. -/
def trueBytes : List Nat := [116, 114, 117, 101]

/-- Bytes of the literal `false`. -/
def falseBytes : List Nat := [102, 97, 108, 115, 101]

/-- Decimal digits of a natural number (model of the digit output of
`strconv.AppendUint`). -/
def decNatBytes (n : Nat) : List Nat := (Nat.toDigits 10 n).map Char.toNat

/-- Decimal text of an integer (model of `strconv.AppendInt`). -/
def decIntBytes (i : Int) : List Nat :=
  if i < 0 then 45 :: decNatBytes i.natAbs else decNatBytes i.toNat

mutual

/-- Model of `marshalTo(w, vin)`. The sink is a pure byte accumulator
returned on success (the Go function's only failure paths are the float
formatter's NaN/Inf rejection, the unknown-type default branch, and sink
write errors, which a pure sink cannot raise). A `RawMessage` value matches
no case of the type switch — the `Marshaler` check is only a TODO comment —
so it falls to the `default` branch and fails. -/
def marshalTo (FM : FloatModel) : GoVal FM.F → Except Err (List Nat)
  | .vnil => .ok nullBytes
  | .vbool b => .ok (if b then trueBytes else falseBytes)
  | .vfloat f => floatEncode FM f
  | .vint _ i => .ok (decIntBytes i)
  | .vstring s => .ok (encodeString s false)
  | .vlist none => .ok nullBytes
  | .vlist (some l) => do
      let body ← marshalItems FM l true
      .ok (91 :: body ++ [93])
  | .vmap none => .ok nullBytes
  | .vmap (some m) => do
      let body ← marshalPairs FM m true
      .ok (123 :: body ++ [125])
  | .vraw _ => .error .unknownVal

/-- The element loop of the `[]interface` case: a comma before every
element but the first, then the element, recursively. -/
def marshalItems (FM : FloatModel) : List (GoVal FM.F) → Bool → Except Err (List Nat)
  | [], _ => .ok []
  | v :: t, first => do
      let bv ← marshalTo FM v
      let bt ← marshalItems FM t false
      .ok ((if first then [] else [44]) ++ bv ++ bt)

/-- The member loop of the `map[string]interface` case: a comma before
every member but the first, then the encoded key, a colon, and the value. -/
def marshalPairs (FM : FloatModel) :
    List (List Nat × GoVal FM.F) → Bool → Except Err (List Nat)
  | [], _ => .ok []
  | (k, v) :: t, first => do
      let bv ← marshalTo FM v
      let bt ← marshalPairs FM t false
      .ok ((if first then [] else [44]) ++ encodeString k false ++ [58] ++ bv ++ bt)

end

/-- Model of `marshal(v)`: marshalTo into a fresh buffer. -/
def marshal (FM : FloatModel) (v : GoVal FM.F) : Except Err (List Nat) :=
  marshalTo FM v

/-- Model of `RawMessage.MarshalJSON`: nil returns `null`, otherwise the
stored bytes unchanged. (Note `marshalTo` never invokes it.) -/
def rawMarshalJSON (m : Option (List Nat)) : List Nat :=
  match m with
  | none => nullBytes
  | some b => b

/-! ## Tokenizer

Modelled from the spec: `readToken`, the `Token`/`Delim`/`Number` helpers'
implementations are not among the provided sources (only their uses in
vjson.go are), so the tokenizer below follows spec sections 4.1 and 4.3:
skip JSON whitespace; recognize `true`/`false`/`null`, `[ ] { }`, strings
with the standard escapes (including `\uXXXX` with surrogate pairs
combined, unpaired surrogates failing), and numerals
`-?digit+(.digit+)?([eE][+-]?digit+)?` by maximal munch. The separators
`,` and `:` are consumed and never surfaced: section 4.3's decode loops
(and the `unmarshalNext` code, which never mentions commas or colons)
require that the token stream contain only values and closing
delimiters. -/

/-- JSON whitespace (space, tab, newline, carriage return). -/
def isWS (b : Nat) : Bool := b = 32 || b = 9 || b = 10 || b = 13

/-- The separators `,` and `:`, consumed silently between tokens. -/
def isSep (b : Nat) : Bool := b = 44 || b = 58

/-- ASCII decimal digit. -/
def isDigitB (b : Nat) : Bool := 48 ≤ b && b ≤ 57

/-- Value of one hex digit (upper or lower case). -/
def hexVal (b : Nat) : Option Nat :=
  if 48 ≤ b && b ≤ 57 then some (b - 48)
  else if 97 ≤ b && b ≤ 102 then some (b - 87)
  else if 65 ≤ b && b ≤ 70 then some (b - 55)
  else none

/-- Value of a four-hex-digit group of a `\uXXXX` escape. -/
def hex4 (a b c d : Nat) : Option Nat := do
  let x ← hexVal a
  let y ← hexVal b
  let z ← hexVal c
  let w ← hexVal d
  pure (x * 4096 + y * 256 + z * 16 + w)

/-- The single-character escapes of a JSON string. -/
def escShort (c : Nat) : Option Nat :=
  if c = 34 then some 34
  else if c = 92 then some 92
  else if c = 47 then some 47
  else if c = 98 then some 8
  else if c = 102 then some 12
  else if c = 110 then some 10
  else if c = 114 then some 13
  else if c = 116 then some 9
  else none

/-- The `\uXXXX` part of a string escape (after the backslash and the `u`):
four hex digits; a high surrogate must be followed by a `\uXXXX` low
surrogate, the pair combining into one code point; a lone low or high
surrogate fails. Returns the code point and the remainder. -/
def uEsc : List Nat → Except Err (Nat × List Nat)
  | h1 :: h2 :: h3 :: h4 :: rest2 =>
    match hex4 h1 h2 h3 h4 with
    | none => .error .badEscape
    | some n =>
      if 0xD800 ≤ n ∧ n < 0xDC00 then
        match rest2 with
        | e1 :: e2 :: g1 :: g2 :: g3 :: g4 :: rest3 =>
          if e1 = 92 ∧ e2 = 117 then
            match hex4 g1 g2 g3 g4 with
            | none => .error .badEscape
            | some m =>
              if 0xDC00 ≤ m ∧ m < 0xE000 then
                .ok (0x10000 + (n - 0xD800) * 1024 + (m - 0xDC00), rest3)
              else .error .unpairedSurrogate
          else .error .unpairedSurrogate
        | _ => .error .unpairedSurrogate
      else if 0xDC00 ≤ n ∧ n < 0xE000 then .error .unpairedSurrogate
      else .ok (n, rest2)
  | _ => .error .badEscape

theorem uEsc_length_le (s : List Nat) (cp : Nat) (r : List Nat)
    (h : uEsc s = .ok (cp, r)) : r.length + 4 ≤ s.length := by
  unfold uEsc at h
  repeat' first
    | split at h
    | split_ifs at h
  all_goals first
    | (injection h with hh
       injection hh with hh1 hh2
       subst hh2
       simp only [List.length_cons]
       omega)
    | exact absurd h (by simp)

/-- Modelled from the spec: string-literal lexer (the opening quote is
already consumed). Copies content bytes, applies the short escapes, and
handles `\uXXXX` escapes through `uEsc`; fails on an unterminated string,
a bad escape, or an unpaired surrogate. -/
def lexStr : List Nat → Except Err (List Nat × List Nat)
  | [] => .error .untermStr
  | b :: rest =>
    if b = 34 then .ok ([], rest)
    else if b = 92 then
      match rest with
      | [] => .error .untermStr
      | c :: rest1 =>
        if c = 117 then
          match h : uEsc rest1 with
          | .error e => .error e
          | .ok (cp, rest2) =>
              (lexStr rest2).map (fun p => (encodeChar cp ++ p.1, p.2))
        else
          match escShort c with
          | some eb => (lexStr rest1).map (fun p => (eb :: p.1, p.2))
          | none => .error .badEscape
    else (lexStr rest).map (fun p => (b :: p.1, p.2))
termination_by s => s.length
decreasing_by
  all_goals
    first
      | (simp only [List.length_cons]; omega)
      | (have h2 := uEsc_length_le _ _ _ (by assumption)
         simp only [List.length_cons]
         omega)

/-- Longest digit run at the head of the input, and the remainder. -/
def takeDigits : List Nat → List Nat × List Nat
  | [] => ([], [])
  | b :: rest =>
    if isDigitB b then
      let p := takeDigits rest
      (b :: p.1, p.2)
    else ([], b :: rest)

/-- Modelled from the spec: optional exponent part of a numeral
(`[eE][+-]?digit+`), appended to the accumulated text. -/
def lexExpPart (acc : List Nat) (s : List Nat) : Except Err (List Nat × List Nat) :=
  match s with
  | e :: s1 =>
    if e = 101 || e = 69 then
      match s1 with
      | sgn :: s2 =>
        if sgn = 43 || sgn = 45 then
          let p := takeDigits s2
          if p.1 = [] then .error .untermNum
          else .ok (acc ++ e :: sgn :: p.1, p.2)
        else
          let p := takeDigits s1
          if p.1 = [] then .error .untermNum
          else .ok (acc ++ e :: p.1, p.2)
      | [] => .error .untermNum
    else .ok (acc, s)
  | [] => .ok (acc, [])

/-- Modelled from the spec: optional fraction (`.digit+`) then optional
exponent. -/
def lexFracExp (acc : List Nat) (s : List Nat) : Except Err (List Nat × List Nat) :=
  match s with
  | [] => lexExpPart acc []
  | b :: s1 =>
    if b = 46 then
      let p := takeDigits s1
      if p.1 = [] then .error .untermNum
      else lexExpPart (acc ++ 46 :: p.1) p.2
    else lexExpPart acc (b :: s1)

/-- Modelled from the spec: numeral lexer (`-?digit+` then fraction and
exponent), returning the raw text (the `Number` token's payload) and the
remainder. -/
def lexNum (s : List Nat) : Except Err (List Nat × List Nat) :=
  match s with
  | [] => .error .untermNum
  | b :: s1 =>
    if b = 45 then
      let p := takeDigits s1
      if p.1 = [] then .error .untermNum
      else lexFracExp (45 :: p.1) p.2
    else
      let p := takeDigits (b :: s1)
      if p.1 = [] then .error .untermNum
      else lexFracExp p.1 p.2

/-- Modelled from the spec: `readToken` — skip whitespace and separators,
then lex one token. End of input yields the propagated io.EOF; an
unexpected byte where a token must start is a SyntaxError. -/
def readToken : List Nat → Except Err (Token × List Nat)
  | [] => .error .ioEOF
  | b :: rest =>
    if isWS b || isSep b then readToken rest
    else if b = 91 || b = 93 || b = 123 || b = 125 then .ok (.tdelim b, rest)
    else if b = 34 then (lexStr rest).map (fun p => (.tstr p.1, p.2))
    else if b = 116 then
      match rest with
      | 114 :: 117 :: 101 :: r => .ok (.tbool true, r)
      | _ => .error (.badTok b)
    else if b = 102 then
      match rest with
      | 97 :: 108 :: 115 :: 101 :: r => .ok (.tbool false, r)
      | _ => .error (.badTok b)
    else if b = 110 then
      match rest with
      | 117 :: 108 :: 108 :: r => .ok (.tnull, r)
      | _ => .error (.badTok b)
    else if b = 45 || isDigitB b then
      (lexNum (b :: rest)).map (fun p => (.tnum p.1, p.2))
    else .error (.badTok b)

/-! ## Decoder `unmarshalNext` (vjson.go) -/

/-- `tokDelim, _ := tok.(Delim)`: the delimiter byte of a token, or `0` (the
zero `Delim`) when the token is not a delimiter. -/
def tokDelim (t : Token) : Nat :=
  match t with
  | .tdelim d => d
  | _ => 0

/-- Model of `newDefaultForToken`: the destination type inferred from a
token when decoding an element of an untyped container. A closing delimiter
reaches the Go `panic` at the end of the function, modelled as `none`
(the callers turn it into the `modelPanic` error). The Go source also maps
a `float64` token to `*float64`; this tokenizer only produces `Number`
tokens, so that case has no counterpart here. -/
def newDefaultForToken : Token → Option Dest
  | .tnull => some .generic
  | .tbool _ => some .boolSlot
  | .tnum _ => some .floatSlot
  | .tstr _ => some .stringSlot
  | .tdelim d =>
      if d = 91 then some .listSlot
      else if d = 123 then some .mapSlot
      else none

/-- Go map assignment `mapV[k] = v` on the association-list model: replace
the value under an existing key (later duplicates overwrite earlier ones),
otherwise append the new pair. -/
def insertAssoc {F : Type} (k : List Nat) (v : GoVal F) :
    List (List Nat × GoVal F) → List (List Nat × GoVal F)
  | [] => [(k, v)]
  | (k0, v0) :: t => if k0 = k then (k, v) :: t else (k0, v0) :: insertAssoc k v t

mutual

/-- Model of `unmarshalNext(r, tok, vin)`. The reader is the remaining byte
list, returned alongside the decoded value; decoding into a slot is
modelled as returning the owned value (the Go `newDefaultForToken` /
`deref` pointer indirection collapses, as the slot is written exactly
once). `fuel` only bounds the recursion for Lean's termination checker;
every caller supplies more fuel than the input length, which the proofs
show is never exhausted. The `intSlot` destinations are the commented-out
cases of the type switch and fall to the `default` branch. -/
def unmarshalNext (FM : FloatModel) :
    Nat → List Nat → Token → Dest → Except Err (GoVal FM.F × List Nat)
  | 0, _, _, _ => .error .outOfFuel
  | fuel + 1, r, tok, d =>
    match d with
    | .generic =>
        if tok = .tnull then .ok (.vnil, r)
        else .error (.scanMismatch tok .generic)
    | .boolSlot =>
        match tok with
        | .tbool b => .ok (.vbool b, r)
        | _ => .error (.scanMismatch tok .boolSlot)
    | .floatSlot =>
        match tok with
        | .tnum text =>
          match FM.parse text with
          | some f => .ok (.vfloat f, r)
          | none => .error .badNum
        | _ => .error (.scanMismatch tok .floatSlot)
    | .stringSlot =>
        match tok with
        | .tstr s => .ok (.vstring s, r)
        | _ => .error (.scanMismatch tok .stringSlot)
    | .listSlot =>
        if tokDelim tok ≠ 91 then .error (.scanMismatch tok .listSlot)
        else unmarshalList FM fuel r []
    | .mapSlot =>
        if tokDelim tok ≠ 123 then .error (.scanMismatch tok .mapSlot)
        else unmarshalMap FM fuel r []
    | .intSlot k => .error (.unknownDest (.intSlot k))

/-- The element loop of the `*[]interface` case: read a token; `]` ends the
array; otherwise infer the element type, decode recursively, append. -/
def unmarshalList (FM : FloatModel) :
    Nat → List Nat → List (GoVal FM.F) → Except Err (GoVal FM.F × List Nat)
  | 0, _, _ => .error .outOfFuel
  | fuel + 1, r, acc =>
    match readToken r with
    | .error e => .error e
    | .ok (t, r1) =>
      if tokDelim t = 93 then .ok (.vlist (some acc), r1)
      else
        match newDefaultForToken t with
        | none => .error .modelPanic
        | some d =>
          match unmarshalNext FM fuel r1 t d with
          | .error e => .error e
          | .ok (v, r2) => unmarshalList FM fuel r2 (acc ++ [v])

/-- The member loop of the `*map[string]interface` case: read the key
token; `}` ends the object; read the value's first token, infer its type,
decode, then (checking the key token is a string, as the source does only
after decoding the value) insert, later duplicates overwriting. -/
def unmarshalMap (FM : FloatModel) :
    Nat → List Nat → List (List Nat × GoVal FM.F) →
    Except Err (GoVal FM.F × List Nat)
  | 0, _, _ => .error .outOfFuel
  | fuel + 1, r, acc =>
    match readToken r with
    | .error e => .error e
    | .ok (keyTok, r1) =>
      if tokDelim keyTok = 125 then .ok (.vmap (some acc), r1)
      else
        match readToken r1 with
        | .error e => .error e
        | .ok (valTok, r2) =>
          match newDefaultForToken valTok with
          | none => .error .modelPanic
          | some d =>
            match unmarshalNext FM fuel r2 valTok d with
            | .error e => .error e
            | .ok (v, r3) =>
              match keyTok with
              | .tstr k => unmarshalMap FM fuel r3 (insertAssoc k v acc)
              | _ => .error (.keyNotString keyTok)

end

/-- Model of `unmarshalFrom`: read one token, then dispatch. -/
def unmarshalFrom (FM : FloatModel) (fuel : Nat) (data : List Nat) (d : Dest) :
    Except Err (GoVal FM.F × List Nat) :=
  match readToken data with
  | .error e => .error e
  | .ok (t, r) => unmarshalNext FM fuel r t d

/-- Model of `unmarshal(data, v)`: decode one value from the front of
`data` (trailing bytes are not inspected, as in the source). The fuel is
one more than the input length, which the round-trip proofs show is ample. -/
def unmarshal (FM : FloatModel) (data : List Nat) (d : Dest) :
    Except Err (GoVal FM.F) :=
  (unmarshalFrom FM (data.length + 1) data d).map Prod.fst

/-- The destination shape matching a value, for round-trip statements: the
pointer type a caller holding this value's type would pass. -/
def shapeOf {F : Type} : GoVal F → Dest
  | .vnil => .generic
  | .vbool _ => .boolSlot
  | .vfloat _ => .floatSlot
  | .vint k _ => .intSlot k
  | .vstring _ => .stringSlot
  | .vlist _ => .listSlot
  | .vmap _ => .mapSlot
  | .vraw _ => .generic

/-! ## A concrete float instantiation for witnesses -/

/-- A tiny concrete float carrier for witnesses: NaN, an infinity, and the
integral doubles of small magnitude (for which the magnitude cutoffs are
false and the shortest fixed-notation rendering is the plain decimal). -/
inductive TFloat where
  | tnan
  | tinf
  | tfin (q : Int)
deriving DecidableEq

/-- Digits-to-number accumulator. -/
def digitsToNat : List Nat → Nat → Nat
  | [], acc => acc
  | d :: t, acc => digitsToNat t (acc * 10 + (d - 48))

/-- Parse a (possibly negative) decimal integer, the fragment of
`strconv.ParseFloat` the witness model needs. -/
def parseDecInt (s : List Nat) : Option Int :=
  match s with
  | [] => none
  | 45 :: t => if t ≠ [] ∧ t.all isDigitB then some (-(digitsToNat t 0 : Int)) else none
  | _ => if s.all isDigitB then some (digitsToNat s 0 : Int) else none

/-- The concrete `FloatModel` used by witnesses. -/
def testFM : FloatModel where
  F := TFloat
  isNaN f := match f with | .tnan => true | _ => false
  isInf f := match f with | .tinf => true | _ => false
  isZero f := match f with | .tfin 0 => true | _ => false
  lowCut _ := false
  highCut _ := false
  fmtFixed f := match f with | .tfin q => decIntBytes q | _ => []
  fmtExp _ := []
  parse s := (parseDecInt s).map .tfin

/-! ## Tokenizer stepping lemmas -/

theorem readToken_comma (s : List Nat) : readToken (44 :: s) = readToken s := by
  simp [readToken, isWS, isSep]

theorem readToken_colon (s : List Nat) : readToken (58 :: s) = readToken s := by
  simp [readToken, isWS, isSep]

theorem readToken_null (r : List Nat) :
    readToken (nullBytes ++ r) = .ok (.tnull, r) := by
  simp [readToken, nullBytes, isWS, isSep]

theorem readToken_true (r : List Nat) :
    readToken (trueBytes ++ r) = .ok (.tbool true, r) := by
  simp [readToken, trueBytes, isWS, isSep]

theorem readToken_false (r : List Nat) :
    readToken (falseBytes ++ r) = .ok (.tbool false, r) := by
  simp [readToken, falseBytes, isWS, isSep]

theorem readToken_delim (d : Nat) (hd : d = 91 ∨ d = 93 ∨ d = 123 ∨ d = 125)
    (r : List Nat) : readToken (d :: r) = .ok (.tdelim d, r) := by
  rcases hd with h | h | h | h <;> subst h <;> simp [readToken, isWS, isSep]

theorem readToken_quote (s : List Nat) :
    readToken (34 :: s) = (lexStr s).map (fun p => (.tstr p.1, p.2)) := by
  simp [readToken, isWS, isSep]

theorem readToken_numhead (b : Nat) (hb : b = 45 ∨ isDigitB b = true)
    (s : List Nat) :
    readToken (b :: s) = (lexNum (b :: s)).map (fun p => (.tnum p.1, p.2)) := by
  rcases hb with h | h
  · subst h; simp [readToken, isWS, isSep, isDigitB]
  · have h1 : 48 ≤ b ∧ b ≤ 57 := by
      simpa [isDigitB, Bool.and_eq_true, decide_eq_true_eq] using h
    simp only [readToken]
    rw [if_neg (by simp only [isWS, isSep, Bool.or_eq_true, decide_eq_true_eq]; omega),
      if_neg (by simp only [Bool.or_eq_true, decide_eq_true_eq]; omega),
      if_neg (by omega),
      if_neg (by omega),
      if_neg (by omega),
      if_neg (by omega),
      if_pos (by simp only [isDigitB, Bool.or_eq_true, Bool.and_eq_true,
        decide_eq_true_eq]; omega)]

/-! ## String lexer inverts the string encoder -/

theorem hexVal_hexDig (x : Nat) (hx : x < 16) : hexVal (hexDig x) = some x := by
  unfold hexVal hexDig
  split_ifs <;> simp_all <;> omega

theorem hex4_u00 (c : Nat) (hc : c < 256) :
    hex4 48 48 (hexDig (c / 16)) (hexDig (c % 16)) = some c := by
  unfold hex4
  rw [show hexVal 48 = some 0 from rfl,
    hexVal_hexDig (c / 16) (by omega), hexVal_hexDig (c % 16) (by omega)]
  simp only [Option.bind_eq_bind, Option.some_bind, Option.pure_def,
    Option.some.injEq]
  omega

theorem hex4_u202 (c : Nat) (hc : c = 0x2028 ∨ c = 0x2029) :
    hex4 50 48 50 (hexDig (c % 16)) = some c := by
  rcases hc with h | h <;> subst h <;> rfl

theorem lexStr_plain (b : Nat) (h34 : b ≠ 34) (h92 : b ≠ 92) (t : List Nat) :
    lexStr (b :: t) = (lexStr t).map (fun p => (b :: p.1, p.2)) := by
  rw [lexStr.eq_def]
  simp only []
  rw [if_neg h34, if_neg h92]

theorem lexStr_append_plain (xs : List Nat)
    (hxs : ∀ b ∈ xs, b ≠ 34 ∧ b ≠ 92) (t : List Nat) :
    lexStr (xs ++ t) = (lexStr t).map (fun p => (xs ++ p.1, p.2)) := by
  induction xs with
  | nil =>
      cases h : lexStr t <;> simp [Except.map, h]
  | cons b bs ih =>
      have hb := hxs b (by simp)
      rw [List.cons_append, lexStr_plain b hb.1 hb.2,
        ih (fun x hx => hxs x (by simp [hx]))]
      cases h : lexStr t <;> simp [Except.map, h]

theorem lexStr_u (h1 h2 h3 h4 n : Nat) (hh : hex4 h1 h2 h3 h4 = some n)
    (hn : n < 0xD800) (t : List Nat) :
    lexStr (92 :: 117 :: h1 :: h2 :: h3 :: h4 :: t)
      = (lexStr t).map (fun p => (encodeChar n ++ p.1, p.2)) := by
  have hu : uEsc (h1 :: h2 :: h3 :: h4 :: t) = .ok (n, t) := by
    rw [uEsc, hh]
    dsimp only
    rw [if_neg (by omega), if_neg (by omega)]
  rw [lexStr.eq_3]
  norm_num
  split
  · rename_i e heq
    rw [hu] at heq
    cases heq
  · rename_i cp rest2 heq
    rw [hu] at heq
    injection heq with hq
    injection hq with hq1 hq2
    subst hq1
    subst hq2
    rfl

theorem lexStr_short (c eb : Nat) (h : escShort c = some eb) (hc : c ≠ 117)
    (t : List Nat) :
    lexStr (92 :: c :: t) = (lexStr t).map (fun p => (eb :: p.1, p.2)) := by
  rw [lexStr.eq_3]
  rw [if_neg (by omega : ¬ (92:Nat) = 34), if_pos rfl, if_neg hc, h]

theorem encodeChar_ne_strutct (c : Nat) (h32 : 32 ≤ c) (h34 : c ≠ 34)
    (h92 : c ≠ 92) : ∀ b ∈ encodeChar c, b ≠ 34 ∧ b ≠ 92 := by
  unfold encodeChar
  split_ifs with g1 g2 g3 <;> intro b hb <;> simp at hb
  · subst hb; exact ⟨h34, h92⟩
  · rcases hb with h | h <;> omega
  · rcases hb with h | h | h <;> omega
  · rcases hb with h | h | h | h <;> omega

/-- The string lexer undoes one character's escape: reading the escaped
form of a scalar character prepends that character's UTF-8 bytes to
whatever the rest of the string lexes to. -/
theorem lexStr_escCharSpec (esc : Bool) (c : Nat) (hc : scalarB c = true)
    (t : List Nat) :
    lexStr (escCharSpec esc c ++ t)
      = (lexStr t).map (fun p => (encodeChar c ++ p.1, p.2)) := by
  have hc' : c < 0xD800 ∨ (0xDFFF < c ∧ c < 0x110000) := by
    simpa [scalarB, Bool.or_eq_true, Bool.and_eq_true, decide_eq_true_eq] using hc
  unfold escCharSpec
  split_ifs with g1 g2 g3 g4 g5 g6 g7
  · subst g1
    rw [show ([92, 116] : List Nat) ++ t = 92 :: 116 :: t from rfl]
    rw [lexStr_short 116 9 rfl (by omega)]
    rfl
  · subst g2
    rw [show ([92, 110] : List Nat) ++ t = 92 :: 110 :: t from rfl]
    rw [lexStr_short 110 10 rfl (by omega)]
    rfl
  · subst g3
    rw [show ([92, 114] : List Nat) ++ t = 92 :: 114 :: t from rfl]
    rw [lexStr_short 114 13 rfl (by omega)]
    rfl
  · rw [show ([92, 117, 48, 48, hexDig (c / 16), hexDig (c % 16)] : List Nat) ++ t
        = 92 :: 117 :: 48 :: 48 :: hexDig (c / 16) :: hexDig (c % 16) :: t from rfl]
    rw [lexStr_u 48 48 (hexDig (c / 16)) (hexDig (c % 16)) c
      (hex4_u00 c (by omega)) (by omega) t]
  · have g5' : c = 34 ∨ c = 92 := by simpa using g5
    rcases g5' with h | h <;> subst h
    · rw [show ([92, 34] : List Nat) ++ t = 92 :: 34 :: t from rfl]
      rw [lexStr_short 34 34 rfl (by omega)]
      rfl
    · rw [show ([92, 92] : List Nat) ++ t = 92 :: 92 :: t from rfl]
      rw [lexStr_short 92 92 rfl (by omega)]
      rfl
  · have hcv : c = 60 ∨ c = 62 ∨ c = 38 := by
      simp only [Bool.and_eq_true, Bool.or_eq_true, decide_eq_true_eq] at g6
      tauto
    rw [show ([92, 117, 48, 48, hexDig (c / 16), hexDig (c % 16)] : List Nat) ++ t
        = 92 :: 117 :: 48 :: 48 :: hexDig (c / 16) :: hexDig (c % 16) :: t from rfl]
    rw [lexStr_u 48 48 (hexDig (c / 16)) (hexDig (c % 16)) c
      (hex4_u00 c (by rcases hcv with h | h | h <;> omega))
      (by rcases hcv with h | h | h <;> omega) t]
  · have hcv : c = 0x2028 ∨ c = 0x2029 := by
      simpa [Bool.or_eq_true, decide_eq_true_eq] using g7
    unfold escU202
    rw [show (92 :: 117 :: 50 :: 48 :: 50 :: hexDig (c % 16) :: []) ++ t
        = 92 :: 117 :: 50 :: 48 :: 50 :: hexDig (c % 16) :: t from rfl]
    rw [lexStr_u 50 48 50 (hexDig (c % 16)) c (hex4_u202 c hcv)
      (by rcases hcv with h | h <;> omega) t]
  · have g5' : ¬ (c = 34 ∨ c = 92) := by
      simpa using g5
    exact lexStr_append_plain (encodeChar c)
      (encodeChar_ne_strutct c (by omega) (fun h => g5' (Or.inl h))
        (fun h => g5' (Or.inr h))) t

/-- The string lexer inverts the string encoder on valid UTF-8 content:
lexing the escaped body followed by the closing quote returns the original
bytes and the remainder past the quote. -/
theorem lexStr_encStrLoop (esc : Bool) (s : List Nat) (hs : ValidUtf8 s)
    (t : List Nat) :
    lexStr (encStrLoop esc s ++ 34 :: t) = .ok (s, t) := by
  induction hs with
  | nil =>
      rw [show encStrLoop esc [] = [] from by rw [encStrLoop]]
      rw [List.nil_append, lexStr.eq_def]
      simp
  | ch c hc s' hs ih =>
      rw [encStrLoop_char esc c hc s', List.append_assoc,
        lexStr_escCharSpec esc c hc, ih]
      rfl

/-- `readToken` on an encoded string literal: the whole literal is consumed
into one string token carrying the original content bytes. -/
theorem readToken_encodeString (s : List Nat) (hs : ValidUtf8 s) (esc : Bool)
    (r : List Nat) :
    readToken (encodeString s esc ++ r) = .ok (.tstr s, r) := by
  unfold encodeString
  rw [show (34 :: encStrLoop esc s ++ [34]) ++ r
      = 34 :: (encStrLoop esc s ++ 34 :: r) from by simp]
  rw [readToken_quote, lexStr_encStrLoop esc s hs r]
  rfl

/-! ## Numeral shapes and the numeral lexer -/

/-- A byte that could extend a numeral: a digit, `.`, `e`, or `E`. After a
complete numeral the next byte must not be one of these for the maximal
munch to stop exactly at the numeral's end (in produced JSON the next byte
is a separator, a closing delimiter, or the end of input). -/
def numCont (b : Nat) : Bool := isDigitB b || b = 46 || b = 101 || b = 69

/-- The head byte (if any) cannot extend a numeral. -/
def noNumContHead : List Nat → Bool
  | [] => true
  | b :: _ => !numCont b

/-- The head byte (if any) is not a digit. -/
def noDigitHead : List Nat → Bool
  | [] => true
  | b :: _ => !isDigitB b

/-- The shape of a well-formed JSON numeral: optional minus, integer
digits, optional fraction digits, optional exponent (optional sign byte
plus digits). -/
structure NumShape where
  neg : Bool
  ip : List Nat
  fp : Option (List Nat)
  es : Option (Option Nat × List Nat)

/-- Bytes of the optional exponent sign. -/
def renderSign : Option Nat → List Nat
  | none => []
  | some sb => [sb]

/-- Bytes of the optional exponent part. -/
def renderExp : Option (Option Nat × List Nat) → List Nat
  | none => []
  | some (sgn, d) => 101 :: (renderSign sgn ++ d)

/-- Bytes of the optional fraction part. -/
def renderFrac : Option (List Nat) → List Nat
  | none => []
  | some d => 46 :: d

/-- The numeral's text. -/
def renderNum (nm : NumShape) : List Nat :=
  (if nm.neg then [45] else []) ++ nm.ip ++ renderFrac nm.fp ++ renderExp nm.es

/-- Well-formedness of the exponent part. -/
def expOK : Option (Option Nat × List Nat) → Bool
  | none => true
  | some (sgn, d) =>
      (match sgn with | none => true | some sb => sb = 43 || sb = 45)
      && !(d = []) && d.all isDigitB

/-- Well-formedness of the fraction part. -/
def fracOK : Option (List Nat) → Bool
  | none => true
  | some d => !(d = []) && d.all isDigitB

/-- Well-formedness of a numeral shape. -/
def numOK (nm : NumShape) : Bool :=
  !(nm.ip = []) && nm.ip.all isDigitB && fracOK nm.fp && expOK nm.es

theorem takeDigits_append (ds : List Nat) (hds : ∀ d ∈ ds, isDigitB d = true)
    (r : List Nat) (hr : noDigitHead r = true) :
    takeDigits (ds ++ r) = (ds, r) := by
  induction ds with
  | nil =>
      cases r with
      | nil => rfl
      | cons b rest =>
          simp only [noDigitHead, Bool.not_eq_true'] at hr
          simp [takeDigits, hr]
  | cons d ds ih =>
      have hd := hds d (by simp)
      rw [List.cons_append]
      rw [takeDigits]
      simp only [hd, if_pos]
      rw [ih (fun x hx => hds x (by simp [hx]))]

theorem noDigitHead_of_noNumContHead (r : List Nat)
    (hr : noNumContHead r = true) : noDigitHead r = true := by
  cases r with
  | nil => rfl
  | cons b rest =>
      simp only [noNumContHead, numCont, Bool.not_eq_true',
        Bool.or_eq_false_iff] at hr
      simp [noDigitHead, hr.1.1.1]

theorem lexExpPart_render (es : Option (Option Nat × List Nat))
    (hes : expOK es = true) (acc : List Nat) (rest : List Nat)
    (hr : noNumContHead rest = true) :
    lexExpPart acc (renderExp es ++ rest) = .ok (acc ++ renderExp es, rest) := by
  cases es with
  | none =>
      rw [renderExp, List.nil_append, List.append_nil]
      cases rest with
      | nil => rfl
      | cons b s1 =>
          simp only [noNumContHead, numCont, Bool.not_eq_true',
            Bool.or_eq_false_iff, decide_eq_false_iff_not] at hr
          rw [lexExpPart.eq_def]
          dsimp only
          rw [if_neg (by simp only [Bool.or_eq_true, decide_eq_true_eq]; tauto)]
  | some p =>
      obtain ⟨sgn, d⟩ := p
      simp only [expOK, Bool.and_eq_true, Bool.not_eq_true',
        decide_eq_false_iff_not, List.all_eq_true] at hes
      obtain ⟨⟨hsgn, hdne⟩, hdall⟩ := hes
      cases sgn with
      | some sb =>
          simp only at hsgn
          rw [renderExp, renderSign]
          rw [show (101 :: ([sb] ++ d)) ++ rest = 101 :: sb :: (d ++ rest) from by simp]
          rw [lexExpPart.eq_def]
          dsimp only
          rw [if_pos (by simp)]
          rw [if_pos hsgn]
          rw [takeDigits_append d hdall rest (noDigitHead_of_noNumContHead rest hr)]
          simp only []
          rw [if_neg (by simpa using hdne)]
          simp
      | none =>
          rw [renderExp, renderSign]
          rw [List.nil_append]
          cases d with
          | nil => exact absurd rfl hdne
          | cons d0 d' =>
              have hd0 : isDigitB d0 = true := hdall d0 (by simp)
              simp only [isDigitB, Bool.and_eq_true, decide_eq_true_eq] at hd0
              rw [show (101 :: d0 :: d') ++ rest = 101 :: d0 :: (d' ++ rest) from by simp]
              rw [lexExpPart.eq_def]
              dsimp only
              rw [if_pos (by simp)]
              rw [if_neg (by simp only [Bool.or_eq_true, decide_eq_true_eq]; omega)]
              rw [show d0 :: (d' ++ rest) = (d0 :: d') ++ rest from by simp]
              rw [takeDigits_append (d0 :: d') hdall rest
                (noDigitHead_of_noNumContHead rest hr)]
              simp only []
              rw [if_neg (by simp)]

theorem lexFracExp_render (fp : Option (List Nat))
    (es : Option (Option Nat × List Nat)) (hfp : fracOK fp = true)
    (hes : expOK es = true) (acc : List Nat) (rest : List Nat)
    (hr : noNumContHead rest = true) :
    lexFracExp acc (renderFrac fp ++ renderExp es ++ rest)
      = .ok (acc ++ renderFrac fp ++ renderExp es, rest) := by
  cases fp with
  | none =>
      rw [renderFrac, List.nil_append, List.append_nil]
      cases es with
      | none =>
          rw [renderExp, List.nil_append]
          cases rest with
          | nil =>
              rw [show lexFracExp acc [] = lexExpPart acc [] from rfl]
              have := lexExpPart_render none (by rfl) acc [] (by rfl)
              simpa [renderExp] using this
          | cons b s1 =>
              have hb : numCont b = false := by
                simpa [noNumContHead] using hr
              have hb46 : ¬ b = 46 := by
                simp only [numCont, Bool.or_eq_false_iff,
                  decide_eq_false_iff_not] at hb
                exact hb.1.1.2
              rw [lexFracExp.eq_def]
              dsimp only
              rw [if_neg hb46]
              have := lexExpPart_render none (by rfl) acc (b :: s1) hr
              simpa [renderExp] using this
      | some p =>
          obtain ⟨sgn, d⟩ := p
          rw [renderExp]
          rw [show (101 :: (renderSign sgn ++ d)) ++ rest
              = 101 :: (renderSign sgn ++ d ++ rest) from by simp]
          rw [lexFracExp.eq_def]
          dsimp only
          rw [if_neg (by omega)]
          have := lexExpPart_render (some (sgn, d)) hes acc rest hr
          rw [renderExp] at this
          simpa using this
  | some d =>
      simp only [fracOK, Bool.and_eq_true, Bool.not_eq_true',
        decide_eq_false_iff_not, List.all_eq_true] at hfp
      obtain ⟨hdne, hdall⟩ := hfp
      rw [renderFrac]
      rw [show (46 :: d) ++ renderExp es ++ rest
          = 46 :: (d ++ (renderExp es ++ rest)) from by simp]
      rw [lexFracExp.eq_def]
      dsimp only
      rw [if_pos rfl]
      have hhead : noDigitHead (renderExp es ++ rest) = true := by
        cases es with
        | none => simpa [renderExp] using noDigitHead_of_noNumContHead rest hr
        | some p =>
            obtain ⟨sgn, d2⟩ := p
            simp [renderExp, noDigitHead, isDigitB]
      rw [takeDigits_append d hdall (renderExp es ++ rest) hhead]
      simp only []
      rw [if_neg (by simpa using hdne)]
      have := lexExpPart_render es hes (acc ++ 46 :: d) rest hr
      rw [show acc ++ 46 :: d ++ renderExp es = acc ++ (46 :: d ++ renderExp es) from by simp]
      simpa using this

theorem lexNum_render (nm : NumShape) (h : numOK nm = true) (rest : List Nat)
    (hr : noNumContHead rest = true) :
    lexNum (renderNum nm ++ rest) = .ok (renderNum nm, rest) := by
  simp only [numOK, Bool.and_eq_true, Bool.not_eq_true',
    decide_eq_false_iff_not, List.all_eq_true] at h
  obtain ⟨⟨⟨hipne, hipall⟩, hfp⟩, hes⟩ := h
  have hhead : noDigitHead (renderFrac nm.fp ++ (renderExp nm.es ++ rest)) = true := by
    cases hfpv : nm.fp with
    | some d => simp [renderFrac, noDigitHead, isDigitB]
    | none =>
        rw [renderFrac, List.nil_append]
        cases hesv : nm.es with
        | some p =>
            obtain ⟨sgn, d2⟩ := p
            simp [renderExp, noDigitHead, isDigitB]
        | none =>
            rw [renderExp, List.nil_append]
            exact noDigitHead_of_noNumContHead rest hr
  cases hneg : nm.neg with
  | true =>
      rw [renderNum, hneg]
      rw [show (if true = true then [45] else ([] : List Nat)) = [45] from rfl]
      rw [show ([45] ++ nm.ip ++ renderFrac nm.fp ++ renderExp nm.es) ++ rest
          = 45 :: (nm.ip ++ (renderFrac nm.fp ++ (renderExp nm.es ++ rest))) from by simp]
      rw [lexNum.eq_def]
      dsimp only
      rw [if_pos rfl]
      rw [takeDigits_append nm.ip hipall _ hhead]
      simp only []
      rw [if_neg (by simpa using hipne)]
      have := lexFracExp_render nm.fp nm.es hfp hes (45 :: nm.ip) rest hr
      rw [show renderFrac nm.fp ++ renderExp nm.es ++ rest
          = renderFrac nm.fp ++ (renderExp nm.es ++ rest) from by simp] at this
      rw [this]
      simp
  | false =>
      rw [renderNum, hneg]
      cases hipv : nm.ip with
      | nil => exact absurd hipv hipne
      | cons d0 ip' =>
          have hd0 : isDigitB d0 = true := by
            rw [hipv] at hipall
            exact hipall d0 (by simp)
          have hd0' : 48 ≤ d0 ∧ d0 ≤ 57 := by
            simpa [isDigitB, Bool.and_eq_true, decide_eq_true_eq] using hd0
          rw [show (if false = true then [45] else []) = ([] : List Nat) from rfl]
          rw [List.nil_append]
          rw [show (d0 :: ip' ++ renderFrac nm.fp ++ renderExp nm.es) ++ rest
              = d0 :: (ip' ++ (renderFrac nm.fp ++ (renderExp nm.es ++ rest))) from by simp]
          rw [lexNum.eq_def]
          dsimp only
          rw [if_neg (by omega)]
          rw [show d0 :: (ip' ++ (renderFrac nm.fp ++ (renderExp nm.es ++ rest)))
              = (d0 :: ip') ++ (renderFrac nm.fp ++ (renderExp nm.es ++ rest)) from by simp]
          rw [show (d0 :: ip') = nm.ip from hipv.symm] at *
          rw [takeDigits_append nm.ip hipall _ hhead]
          simp only []
          rw [if_neg (by simpa using hipne)]
          have := lexFracExp_render nm.fp nm.es hfp hes nm.ip rest hr
          rw [show renderFrac nm.fp ++ renderExp nm.es ++ rest
              = renderFrac nm.fp ++ (renderExp nm.es ++ rest) from by simp] at this
          rw [this]

/-- `readToken` on a rendered numeral: the whole numeral is consumed into
one number token carrying exactly the numeral's text, provided the
following byte cannot extend a numeral. -/
theorem readToken_renderNum (nm : NumShape) (h : numOK nm = true)
    (r : List Nat) (hr : noNumContHead r = true) :
    readToken (renderNum nm ++ r) = .ok (.tnum (renderNum nm), r) := by
  have hlex := lexNum_render nm h r hr
  simp only [numOK, Bool.and_eq_true, Bool.not_eq_true',
    decide_eq_false_iff_not, List.all_eq_true] at h
  obtain ⟨⟨⟨hipne, hipall⟩, -⟩, -⟩ := h
  cases hneg : nm.neg with
  | true =>
      have hform : renderNum nm ++ r
          = 45 :: (nm.ip ++ (renderFrac nm.fp ++ (renderExp nm.es ++ r))) := by
        rw [renderNum, hneg]
        simp
      rw [hform, readToken_numhead 45 (Or.inl rfl) _, ← hform, hlex]
      rfl
  | false =>
      cases hipv : nm.ip with
      | nil => exact absurd hipv hipne
      | cons d0 ip' =>
          have hd0 : isDigitB d0 = true := by
            rw [hipv] at hipall
            exact hipall d0 (by simp)
          have hform : renderNum nm ++ r
              = d0 :: (ip' ++ (renderFrac nm.fp ++ (renderExp nm.es ++ r))) := by
            rw [renderNum, hneg, hipv]
            simp
          rw [hform, readToken_numhead d0 (Or.inr hd0) _, ← hform, hlex]
          rfl

/-! ## Well-formed values and the round-trip -/

/-- The float value round-trips through the formatter and parser: the
formatter emits a well-formed numeral whose parse returns the value. For a
real IEEE-754 double every non-NaN finite value has this property, since
`strconv.AppendFloat` with precision `-1` produces the shortest decimal
text that `ParseFloat` reads back to the same bits; in the abstract float
model it is a hypothesis. -/
def FloatRT (FM : FloatModel) (f : FM.F) : Prop :=
  ∃ nm : NumShape, numOK nm = true ∧ floatEncode FM f = .ok (renderNum nm) ∧
    FM.parse (renderNum nm) = some f

/-- Well-formed values for the round-trip: built from the decodable closed
set (no fixed-width integer, no Raw, no nil list or map), with text (valid
UTF-8) strings and object keys, distinct keys per object, and round-tripping
floats. -/
inductive WF (FM : FloatModel) : GoVal FM.F → Prop
  | wnil : WF FM .vnil
  | wbool (b : Bool) : WF FM (.vbool b)
  | wfloat (f : FM.F) (h : FloatRT FM f) : WF FM (.vfloat f)
  | wstring (s : List Nat) (h : ValidUtf8 s) : WF FM (.vstring s)
  | wlist (l : List (GoVal FM.F)) (h : ∀ v ∈ l, WF FM v) :
      WF FM (.vlist (some l))
  | wmap (m : List (List Nat × GoVal FM.F))
      (hk : (m.map Prod.fst).Nodup)
      (hks : ∀ kv ∈ m, ValidUtf8 kv.1)
      (hv : ∀ kv ∈ m, WF FM kv.2) : WF FM (.vmap (some m))

mutual

/-- A sufficient recursion budget for decoding this value (each
`unmarshalNext` call and each container-loop iteration consumes one unit
of the model's fuel). -/
def needFuel {F : Type} : GoVal F → Nat
  | .vlist (some l) => 1 + needList l
  | .vmap (some m) => 1 + needMap m
  | _ => 1

/-- Budget for the element loop of a list. -/
def needList {F : Type} : List (GoVal F) → Nat
  | [] => 1
  | v :: t => 1 + max (needFuel v) (needList t)

/-- Budget for the member loop of a map. -/
def needMap {F : Type} : List (List Nat × GoVal F) → Nat
  | [] => 1
  | (_, v) :: t => 1 + max (needFuel v) (needMap t)

end

theorem needFuel_pos {F : Type} (v : GoVal F) : 1 ≤ needFuel v := by
  unfold needFuel
  split <;> omega

theorem insertAssoc_notmem {F : Type} (k : List Nat) (v : GoVal F)
    (l : List (List Nat × GoVal F)) (h : k ∉ l.map Prod.fst) :
    insertAssoc k v l = l ++ [(k, v)] := by
  induction l with
  | nil => rfl
  | cons kv t ih =>
      obtain ⟨k0, v0⟩ := kv
      simp only [List.map_cons, List.mem_cons, not_or] at h
      rw [insertAssoc]
      rw [if_neg (fun hh => h.1 (by simp [hh]))]
      rw [ih h.2]
      simp

theorem marshalItems_cons_shape (FM : FloatModel) (w : GoVal FM.F)
    (t : List (GoVal FM.F)) (bt : List Nat)
    (h : marshalItems FM (w :: t) false = .ok bt) :
    ∃ bt', bt = 44 :: bt' := by
  rw [marshalItems] at h
  cases hv : marshalTo FM w with
  | error e => rw [hv] at h; simp [Bind.bind, Except.bind] at h
  | ok bv =>
      rw [hv] at h
      cases ht : marshalItems FM t false with
      | error e => rw [ht] at h; simp [Bind.bind, Except.bind] at h
      | ok bts =>
          rw [ht] at h
          simp only [Bind.bind, Except.bind, pure, Except.pure] at h
          injection h with h
          exact ⟨bv ++ bts, by rw [← h]; simp⟩

theorem marshalPairs_cons_shape (FM : FloatModel) (kw : List Nat × GoVal FM.F)
    (t : List (List Nat × GoVal FM.F)) (bt : List Nat)
    (h : marshalPairs FM (kw :: t) false = .ok bt) :
    ∃ bt', bt = 44 :: bt' := by
  obtain ⟨k, w⟩ := kw
  rw [marshalPairs] at h
  cases hv : marshalTo FM w with
  | error e => rw [hv] at h; simp [Bind.bind, Except.bind] at h
  | ok bv =>
      rw [hv] at h
      cases ht : marshalPairs FM t false with
      | error e => rw [ht] at h; simp [Bind.bind, Except.bind] at h
      | ok bts =>
          rw [ht] at h
          simp only [Bind.bind, Except.bind, pure, Except.pure] at h
          injection h with h
          exact ⟨encodeString k false ++ 58 :: bv ++ bts, by rw [← h]; simp⟩

/-- The bytes that follow an element inside a container never start with a
byte that could extend a numeral: either the closing delimiter follows
directly, or a comma does. -/
theorem noNumContHead_body (bt : List Nat) (d : Nat)
    (hd : numCont d = false) (rest : List Nat)
    (hsh : bt = [] ∨ ∃ bt', bt = 44 :: bt') :
    noNumContHead (bt ++ d :: rest) = true := by
  rcases hsh with h | ⟨bt', h⟩ <;> subst h
  · simp [noNumContHead, hd]
  · simp [noNumContHead, numCont, isDigitB]

/-- The decode-inverts-encode property of one value: its encoding, followed
by any bytes that cannot extend a numeral, reads back as a single leading
token which type-infers to the value's own shape and decodes to the value,
leaving exactly the following bytes. -/
def DecEnc (FM : FloatModel) (v : GoVal FM.F) : Prop :=
  ∀ bs rest fuel, marshalTo FM v = .ok bs → needFuel v ≤ fuel →
    noNumContHead rest = true →
    ∃ tk r1, readToken (bs ++ rest) = .ok (tk, r1) ∧
      newDefaultForToken tk = some (shapeOf v) ∧
      tokDelim tk ≠ 93 ∧ tokDelim tk ≠ 125 ∧
      unmarshalNext FM fuel r1 tk (shapeOf v) = .ok (v, rest)

/-- The decoder's element loop undoes the encoder's element loop. -/
theorem unmarshalList_items (FM : FloatModel) (l : List (GoVal FM.F))
    (ih : ∀ v ∈ l, DecEnc FM v) :
    ∀ (first : Bool) (body : List Nat)
      (acc : List (GoVal FM.F)) (rest : List Nat) (fuel : Nat),
      marshalItems FM l first = .ok body →
      needList l ≤ fuel → noNumContHead rest = true →
      unmarshalList FM fuel (body ++ 93 :: rest) acc
        = .ok (.vlist (some (acc ++ l)), rest) := by
  induction l with
  | nil =>
      intro first body acc rest fuel hb hf hr
      rw [marshalItems] at hb
      injection hb with hb
      subst hb
      obtain ⟨f, rfl⟩ : ∃ f, fuel = f + 1 :=
        ⟨fuel - 1, by rw [needList] at hf; omega⟩
      rw [List.nil_append]
      rw [unmarshalList]
      rw [readToken_delim 93 (by simp) rest]
      simp [tokDelim]
  | cons v t iht =>
      intro first body acc rest fuel hb hf hr
      rw [marshalItems] at hb
      cases hbv : marshalTo FM v with
      | error e => rw [hbv] at hb; simp [Bind.bind, Except.bind] at hb
      | ok bv =>
        rw [hbv] at hb
        cases hbt : marshalItems FM t false with
        | error e => rw [hbt] at hb; simp [Bind.bind, Except.bind] at hb
        | ok bt =>
          rw [hbt] at hb
          simp only [Bind.bind, Except.bind, pure, Except.pure] at hb
          injection hb with hb
          subst hb
          obtain ⟨f, rfl⟩ : ∃ f, fuel = f + 1 :=
            ⟨fuel - 1, by rw [needList] at hf; omega⟩
          have hf1 : needFuel v ≤ f := by rw [needList] at hf; omega
          have hf2 : needList t ≤ f := by rw [needList] at hf; omega
          have hsh : bt = [] ∨ ∃ bt', bt = 44 :: bt' := by
            cases t with
            | nil =>
                left
                rw [marshalItems] at hbt
                injection hbt with h
                exact h.symm
            | cons w t' => exact Or.inr (marshalItems_cons_shape FM w t' bt hbt)
          have hrest' : noNumContHead (bt ++ 93 :: rest) = true :=
            noNumContHead_body bt 93 (by decide) rest hsh
          obtain ⟨tk, r1, hrt, hnd, h93, h125, hun⟩ :=
            ih v (by simp) bv (bt ++ 93 :: rest) f hbv hf1 hrest'
          have hread : readToken
              (((if first then ([] : List Nat) else [44]) ++ bv ++ bt) ++ 93 :: rest)
              = .ok (tk, r1) := by
            cases first
            · rw [show (((if false = true then ([] : List Nat) else [44]) ++ bv ++ bt) ++ 93 :: rest)
                  = 44 :: (bv ++ (bt ++ 93 :: rest)) from by simp]
              rw [readToken_comma]
              exact hrt
            · rw [show (((if true = true then ([] : List Nat) else [44]) ++ bv ++ bt) ++ 93 :: rest)
                  = bv ++ (bt ++ 93 :: rest) from by simp]
              exact hrt
          rw [unmarshalList]
          rw [hread]
          dsimp only
          rw [if_neg h93, hnd]
          dsimp only
          rw [hun]
          dsimp only
          rw [iht (fun w hw => ih w (by simp [hw])) false bt (acc ++ [v]) rest f
            hbt hf2 hr]
          simp

/-- The decoder's member loop undoes the encoder's member loop. -/
theorem unmarshalMap_pairs (FM : FloatModel)
    (m : List (List Nat × GoVal FM.F))
    (ih : ∀ kv ∈ m, DecEnc FM kv.2) (hks : ∀ kv ∈ m, ValidUtf8 kv.1) :
    ∀ (first : Bool) (body : List Nat)
      (acc : List (List Nat × GoVal FM.F)) (rest : List Nat) (fuel : Nat),
      marshalPairs FM m first = .ok body →
      needMap m ≤ fuel → noNumContHead rest = true →
      (((acc ++ m).map Prod.fst)).Nodup →
      unmarshalMap FM fuel (body ++ 125 :: rest) acc
        = .ok (.vmap (some (acc ++ m)), rest) := by
  induction m with
  | nil =>
      intro first body acc rest fuel hb hf hr hnd
      rw [marshalPairs] at hb
      injection hb with hb
      subst hb
      obtain ⟨f, rfl⟩ : ∃ f, fuel = f + 1 :=
        ⟨fuel - 1, by rw [needMap] at hf; omega⟩
      rw [List.nil_append]
      rw [unmarshalMap]
      rw [readToken_delim 125 (by simp) rest]
      simp [tokDelim]
  | cons kv t iht =>
      obtain ⟨k, v⟩ := kv
      intro first body acc rest fuel hb hf hr hnd
      rw [marshalPairs] at hb
      cases hbv : marshalTo FM v with
      | error e => rw [hbv] at hb; simp [Bind.bind, Except.bind] at hb
      | ok bv =>
        rw [hbv] at hb
        cases hbt : marshalPairs FM t false with
        | error e => rw [hbt] at hb; simp [Bind.bind, Except.bind] at hb
        | ok bt =>
          rw [hbt] at hb
          simp only [Bind.bind, Except.bind, pure, Except.pure] at hb
          injection hb with hb
          subst hb
          obtain ⟨f, rfl⟩ : ∃ f, fuel = f + 1 :=
            ⟨fuel - 1, by rw [needMap] at hf; omega⟩
          have hf1 : needFuel v ≤ f := by rw [needMap] at hf; omega
          have hf2 : needMap t ≤ f := by rw [needMap] at hf; omega
          have hsh : bt = [] ∨ ∃ bt', bt = 44 :: bt' := by
            cases t with
            | nil =>
                left
                rw [marshalPairs] at hbt
                injection hbt with h
                exact h.symm
            | cons kw t' => exact Or.inr (marshalPairs_cons_shape FM kw t' bt hbt)
          have hrest' : noNumContHead (bt ++ 125 :: rest) = true :=
            noNumContHead_body bt 125 (by decide) rest hsh
          obtain ⟨tk, r1, hrt, hnd', h93, h125, hun⟩ :=
            ih (k, v) (by simp) bv (bt ++ 125 :: rest) f hbv hf1 hrest'
          have hkvu : ValidUtf8 k := hks (k, v) (by simp)
          have hreadKey : readToken
              ((if first = true then ([] : List Nat) else [44])
                ++ (encodeString k false ++ (58 :: (bv ++ (bt ++ 125 :: rest)))))
              = .ok (.tstr k, 58 :: (bv ++ (bt ++ 125 :: rest))) := by
            cases first
            · rw [show ((if false = true then ([] : List Nat) else [44])
                  ++ (encodeString k false ++ (58 :: (bv ++ (bt ++ 125 :: rest)))))
                  = 44 :: (encodeString k false ++ (58 :: (bv ++ (bt ++ 125 :: rest))))
                  from by simp]
              rw [readToken_comma]
              exact readToken_encodeString k hkvu false _
            · rw [show ((if true = true then ([] : List Nat) else [44])
                  ++ (encodeString k false ++ (58 :: (bv ++ (bt ++ 125 :: rest)))))
                  = encodeString k false ++ (58 :: (bv ++ (bt ++ 125 :: rest)))
                  from by simp]
              exact readToken_encodeString k hkvu false _
          rw [unmarshalMap]
          simp only [List.append_assoc, List.cons_append, List.singleton_append,
            List.nil_append]
          rw [hreadKey]
          dsimp only
          rw [if_neg (by simp [tokDelim])]
          rw [readToken_colon, hrt]
          dsimp only
          rw [hnd']
          dsimp only
          rw [hun]
          dsimp only
          have hmapfst : ((acc ++ (k, v) :: t).map Prod.fst)
              = acc.map Prod.fst ++ k :: t.map Prod.fst := by simp
          have hknotin : k ∉ acc.map Prod.fst := by
            rw [hmapfst, List.nodup_append] at hnd
            intro hmem
            exact hnd.2.2 hmem (by simp)
          rw [insertAssoc_notmem k v acc hknotin]
          have hnd2 : (((acc ++ [(k, v)]) ++ t).map Prod.fst).Nodup := by
            rw [show (acc ++ [(k, v)]) ++ t = acc ++ (k, v) :: t from by simp]
            exact hnd
          rw [iht (fun kw hkw => ih kw (by simp [hkw]))
            (fun kw hkw => hks kw (by simp [hkw])) false bt (acc ++ [(k, v)])
            rest f hbt hf2 hr hnd2]
          simp

/-- Decoding inverts encoding for every well-formed value. -/
theorem decEnc_of_WF (FM : FloatModel) (v : GoVal FM.F) (hw : WF FM v) :
    DecEnc FM v := by
  induction hw with
  | wnil =>
      intro bs rest fuel hb hf hr
      rw [marshalTo] at hb
      injection hb with hb
      subst hb
      obtain ⟨f, rfl⟩ : ∃ f, fuel = f + 1 := ⟨fuel - 1, by
        have := needFuel_pos (GoVal.vnil : GoVal FM.F)
        omega⟩
      refine ⟨.tnull, rest, readToken_null rest, rfl, by simp [tokDelim],
        by simp [tokDelim], ?_⟩
      rw [unmarshalNext.eq_def]
      dsimp only [shapeOf]
      rw [if_pos rfl]
  | wbool b =>
      intro bs rest fuel hb hf hr
      rw [marshalTo] at hb
      obtain ⟨f, rfl⟩ : ∃ f, fuel = f + 1 := ⟨fuel - 1, by
        have := needFuel_pos (GoVal.vbool b : GoVal FM.F)
        omega⟩
      cases b
      · rw [if_neg (by simp)] at hb
        injection hb with hb
        subst hb
        exact ⟨.tbool false, rest, readToken_false rest, rfl,
          by simp [tokDelim], by simp [tokDelim],
          by rw [unmarshalNext.eq_def]; dsimp only [shapeOf]⟩
      · rw [if_pos rfl] at hb
        injection hb with hb
        subst hb
        exact ⟨.tbool true, rest, readToken_true rest, rfl,
          by simp [tokDelim], by simp [tokDelim],
          by rw [unmarshalNext.eq_def]; dsimp only [shapeOf]⟩
  | wfloat f hrt =>
      intro bs rest fuel hb hf hr
      obtain ⟨nm, hok, henc, hparse⟩ := hrt
      rw [marshalTo, henc] at hb
      injection hb with hb
      subst hb
      obtain ⟨fl, rfl⟩ : ∃ fl, fuel = fl + 1 := ⟨fuel - 1, by
        have := needFuel_pos (GoVal.vfloat f : GoVal FM.F)
        omega⟩
      refine ⟨.tnum (renderNum nm), rest, readToken_renderNum nm hok rest hr,
        rfl, by simp [tokDelim], by simp [tokDelim], ?_⟩
      rw [unmarshalNext.eq_def]
      dsimp only [shapeOf]
      rw [hparse]
  | wstring s hvu =>
      intro bs rest fuel hb hf hr
      rw [marshalTo] at hb
      injection hb with hb
      subst hb
      obtain ⟨f, rfl⟩ : ∃ f, fuel = f + 1 := ⟨fuel - 1, by
        have := needFuel_pos (GoVal.vstring s : GoVal FM.F)
        omega⟩
      exact ⟨.tstr s, rest, readToken_encodeString s hvu false rest, rfl,
        by simp [tokDelim], by simp [tokDelim],
        by rw [unmarshalNext.eq_def]; dsimp only [shapeOf]⟩
  | wlist l hl ih =>
      intro bs rest fuel hb hf hr
      rw [marshalTo] at hb
      cases hbody : marshalItems FM l true with
      | error e => rw [hbody] at hb; simp [Bind.bind, Except.bind] at hb
      | ok body =>
          rw [hbody] at hb
          simp only [Bind.bind, Except.bind, pure, Except.pure] at hb
          injection hb with hb
          subst hb
          obtain ⟨f, rfl⟩ : ∃ f, fuel = f + 1 := ⟨fuel - 1, by
            have := needFuel_pos (GoVal.vlist (some l) : GoVal FM.F)
            omega⟩
          have hfl : needList l ≤ f := by
            rw [needFuel] at hf
            omega
          refine ⟨.tdelim 91, body ++ 93 :: rest, ?_, rfl, by simp [tokDelim],
            by simp [tokDelim], ?_⟩
          · rw [show (91 :: body ++ [93]) ++ rest
                = 91 :: (body ++ 93 :: rest) from by simp]
            exact readToken_delim 91 (by simp) _
          · rw [unmarshalNext.eq_def]
            dsimp only [shapeOf]
            rw [if_neg (by simp [tokDelim])]
            rw [unmarshalList_items FM l ih true body [] rest f hbody hfl hr]
            simp
  | wmap m hk hks hv ih =>
      intro bs rest fuel hb hf hr
      rw [marshalTo] at hb
      cases hbody : marshalPairs FM m true with
      | error e => rw [hbody] at hb; simp [Bind.bind, Except.bind] at hb
      | ok body =>
          rw [hbody] at hb
          simp only [Bind.bind, Except.bind, pure, Except.pure] at hb
          injection hb with hb
          subst hb
          obtain ⟨f, rfl⟩ : ∃ f, fuel = f + 1 := ⟨fuel - 1, by
            have := needFuel_pos (GoVal.vmap (some m) : GoVal FM.F)
            omega⟩
          have hfm : needMap m ≤ f := by
            rw [needFuel] at hf
            omega
          refine ⟨.tdelim 123, body ++ 125 :: rest, ?_, rfl, by simp [tokDelim],
            by simp [tokDelim], ?_⟩
          · rw [show (123 :: body ++ [125]) ++ rest
                = 123 :: (body ++ 125 :: rest) from by simp]
            exact readToken_delim 123 (by simp) _
          · rw [unmarshalNext.eq_def]
            dsimp only [shapeOf]
            rw [if_neg (by simp [tokDelim])]
            rw [unmarshalMap_pairs FM m ih hks true body [] rest f hbody hfm hr
              (by simpa using hk)]
            simp

theorem marshalItems_ok (FM : FloatModel) (l : List (GoVal FM.F))
    (ih : ∀ v ∈ l, ∃ bs, marshalTo FM v = .ok bs) :
    ∀ first, ∃ body, marshalItems FM l first = .ok body := by
  induction l with
  | nil => exact fun first => ⟨[], by rw [marshalItems]⟩
  | cons v t iht =>
      intro first
      obtain ⟨bv, hbv⟩ := ih v (by simp)
      obtain ⟨bt, hbt⟩ := iht (fun w hw => ih w (by simp [hw])) false
      exact ⟨(if first then [] else [44]) ++ bv ++ bt,
        by rw [marshalItems, hbv, hbt]; rfl⟩

theorem marshalPairs_ok (FM : FloatModel)
    (m : List (List Nat × GoVal FM.F))
    (ih : ∀ kv ∈ m, ∃ bs, marshalTo FM kv.2 = .ok bs) :
    ∀ first, ∃ body, marshalPairs FM m first = .ok body := by
  induction m with
  | nil => exact fun first => ⟨[], by rw [marshalPairs]⟩
  | cons kv t iht =>
      obtain ⟨k, v⟩ := kv
      intro first
      obtain ⟨bv, hbv⟩ := ih (k, v) (by simp)
      obtain ⟨bt, hbt⟩ := iht (fun kw hkw => ih kw (by simp [hkw])) false
      exact ⟨(if first then [] else [44]) ++ encodeString k false ++ [58] ++ bv ++ bt,
        by rw [marshalPairs, hbv, hbt]; rfl⟩

/-- Encoding succeeds on every well-formed value. -/
theorem marshalWF (FM : FloatModel) (v : GoVal FM.F) (hw : WF FM v) :
    ∃ bs, marshalTo FM v = .ok bs := by
  induction hw with
  | wnil => exact ⟨_, by rw [marshalTo]⟩
  | wbool b => exact ⟨_, by rw [marshalTo]⟩
  | wfloat f h =>
      obtain ⟨nm, _, henc, _⟩ := h
      exact ⟨_, by rw [marshalTo, henc]⟩
  | wstring s h => exact ⟨_, by rw [marshalTo]⟩
  | wlist l h ih =>
      obtain ⟨body, hbody⟩ := marshalItems_ok FM l ih true
      exact ⟨_, by rw [marshalTo, hbody]; rfl⟩
  | wmap m hk hks hv ih =>
      obtain ⟨body, hbody⟩ := marshalPairs_ok FM m ih true
      exact ⟨_, by rw [marshalTo, hbody]; rfl⟩

theorem renderNum_pos (nm : NumShape) (h : numOK nm = true) :
    1 ≤ (renderNum nm).length := by
  simp only [numOK, Bool.and_eq_true, Bool.not_eq_true',
    decide_eq_false_iff_not] at h
  rw [renderNum]
  cases hip : nm.ip with
  | nil => exact absurd hip h.1.1.1
  | cons d0 ip' => simp [hip]; omega

/-- The encoding of a well-formed value is nonempty. -/
theorem marshalTo_pos (FM : FloatModel) (v : GoVal FM.F) (hw : WF FM v)
    (bs : List Nat) (hb : marshalTo FM v = .ok bs) : 1 ≤ bs.length := by
  cases hw with
  | wnil =>
      rw [marshalTo] at hb
      injection hb with hb
      subst hb
      simp [nullBytes]
  | wbool b =>
      rw [marshalTo] at hb
      cases b <;> simp only [if_pos, if_neg, Bool.false_eq_true,
        not_false_eq_true] at hb <;> injection hb with hb <;> subst hb <;>
        simp [trueBytes, falseBytes]
  | wfloat f h =>
      obtain ⟨nm, hok, henc, _⟩ := h
      rw [marshalTo, henc] at hb
      injection hb with hb
      subst hb
      exact renderNum_pos nm hok
  | wstring s h =>
      rw [marshalTo] at hb
      injection hb with hb
      subst hb
      simp [encodeString]
  | wlist l h =>
      rw [marshalTo] at hb
      cases hbody : marshalItems FM l true with
      | error e => rw [hbody] at hb; simp [Bind.bind, Except.bind] at hb
      | ok body =>
          rw [hbody] at hb
          simp only [Bind.bind, Except.bind, pure, Except.pure] at hb
          injection hb with hb
          subst hb
          simp
  | wmap m hk hks hv =>
      rw [marshalTo] at hb
      cases hbody : marshalPairs FM m true with
      | error e => rw [hbody] at hb; simp [Bind.bind, Except.bind] at hb
      | ok body =>
          rw [hbody] at hb
          simp only [Bind.bind, Except.bind, pure, Except.pure] at hb
          injection hb with hb
          subst hb
          simp

theorem needList_le (FM : FloatModel) (l : List (GoVal FM.F))
    (hw : ∀ v ∈ l, WF FM v)
    (hb : ∀ v ∈ l, ∀ bs, marshalTo FM v = .ok bs → needFuel v ≤ bs.length + 1) :
    ∀ first body, marshalItems FM l first = .ok body →
      needList l ≤ body.length + 2 := by
  induction l with
  | nil =>
      intro first body _
      rw [needList]
      omega
  | cons v t iht =>
      intro first body hbody
      rw [marshalItems] at hbody
      cases hbv : marshalTo FM v with
      | error e => rw [hbv] at hbody; simp [Bind.bind, Except.bind] at hbody
      | ok bv =>
        rw [hbv] at hbody
        cases hbt : marshalItems FM t false with
        | error e => rw [hbt] at hbody; simp [Bind.bind, Except.bind] at hbody
        | ok bt =>
          rw [hbt] at hbody
          simp only [Bind.bind, Except.bind, pure, Except.pure] at hbody
          injection hbody with hbody
          subst hbody
          have h1 : needFuel v ≤ bv.length + 1 := hb v (by simp) bv hbv
          have h2 : needList t ≤ bt.length + 2 :=
            iht (fun w hw2 => hw w (by simp [hw2]))
              (fun w hw2 => hb w (by simp [hw2])) false bt hbt
          have h3 : 1 ≤ bv.length := marshalTo_pos FM v (hw v (by simp)) bv hbv
          rw [needList]
          cases first <;> simp <;> omega

theorem needMap_le (FM : FloatModel) (m : List (List Nat × GoVal FM.F))
    (hw : ∀ kv ∈ m, WF FM kv.2)
    (hb : ∀ kv ∈ m, ∀ bs, marshalTo FM kv.2 = .ok bs →
      needFuel kv.2 ≤ bs.length + 1) :
    ∀ first body, marshalPairs FM m first = .ok body →
      needMap m ≤ body.length + 2 := by
  induction m with
  | nil =>
      intro first body _
      rw [needMap]
      omega
  | cons kv t iht =>
      obtain ⟨k, v⟩ := kv
      intro first body hbody
      rw [marshalPairs] at hbody
      cases hbv : marshalTo FM v with
      | error e => rw [hbv] at hbody; simp [Bind.bind, Except.bind] at hbody
      | ok bv =>
        rw [hbv] at hbody
        cases hbt : marshalPairs FM t false with
        | error e => rw [hbt] at hbody; simp [Bind.bind, Except.bind] at hbody
        | ok bt =>
          rw [hbt] at hbody
          simp only [Bind.bind, Except.bind, pure, Except.pure] at hbody
          injection hbody with hbody
          subst hbody
          have h1 : needFuel v ≤ bv.length + 1 := hb (k, v) (by simp) bv hbv
          have h2 : needMap t ≤ bt.length + 2 :=
            iht (fun kw hw2 => hw kw (by simp [hw2]))
              (fun kw hw2 => hb kw (by simp [hw2])) false bt hbt
          rw [needMap]
          cases first <;> simp <;> omega

/-- The decoder's default fuel (input length plus one) covers the budget
needed to decode any well-formed value from its own encoding. -/
theorem needFuel_le (FM : FloatModel) (v : GoVal FM.F) (hw : WF FM v) :
    ∀ bs, marshalTo FM v = .ok bs → needFuel v ≤ bs.length + 1 := by
  induction hw with
  | wnil =>
      intro bs _
      rw [needFuel]
      all_goals first
        | omega
        | (intro x hx; simp at hx)
  | wbool b =>
      intro bs _
      rw [needFuel]
      all_goals first
        | omega
        | (intro x hx; simp at hx)
  | wfloat f h =>
      intro bs _
      rw [needFuel]
      all_goals first
        | omega
        | (intro x hx; simp at hx)
  | wstring s h =>
      intro bs _
      rw [needFuel]
      all_goals first
        | omega
        | (intro x hx; simp at hx)
  | wlist l h ih =>
      intro bs hb
      rw [marshalTo] at hb
      cases hbody : marshalItems FM l true with
      | error e => rw [hbody] at hb; simp [Bind.bind, Except.bind] at hb
      | ok body =>
          rw [hbody] at hb
          simp only [Bind.bind, Except.bind, pure, Except.pure] at hb
          injection hb with hb
          subst hb
          have := needList_le FM l h ih true body hbody
          rw [needFuel]
          simp
          omega
  | wmap m hk hks hv ih =>
      intro bs hb
      rw [marshalTo] at hb
      cases hbody : marshalPairs FM m true with
      | error e => rw [hbody] at hb; simp [Bind.bind, Except.bind] at hb
      | ok body =>
          rw [hbody] at hb
          simp only [Bind.bind, Except.bind, pure, Except.pure] at hb
          injection hb with hb
          subst hb
          have := needMap_le FM m hv ih true body hbody
          rw [needFuel]
          simp
          omega

/-- Round-trip on well-formed values: encoding succeeds, and decoding the
produced bytes into a destination of the value's own shape returns the
value. -/
theorem roundtripWF (FM : FloatModel) (v : GoVal FM.F) (hw : WF FM v) :
    ∃ bs, marshal FM v = .ok bs ∧ unmarshal FM bs (shapeOf v) = .ok v := by
  obtain ⟨bs, hbs⟩ := marshalWF FM v hw
  refine ⟨bs, hbs, ?_⟩
  have hfuel : needFuel v ≤ bs.length + 1 := needFuel_le FM v hw bs hbs
  obtain ⟨tk, r1, hrt, hnd, h93, h125, hun⟩ :=
    decEnc_of_WF FM v hw bs [] (bs.length + 1) hbs hfuel rfl
  rw [List.append_nil] at hrt
  unfold unmarshal unmarshalFrom
  rw [hrt]
  dsimp only
  rw [hun]
  rfl

/-! ## Claim theorems -/

/-- C1, counterexample: the round-trip fails as stated on a nil list (a
value of the supported closed set): `marshalTo` encodes a nil
`[]interface` as `null`, but decoding `null` into a `*[]interface`
destination — the destination of the value's shape — fails with the
unable-to-scan TypeError instead of returning the value. -/
theorem claim1_roundtrip_counterexample :
    marshal testFM (GoVal.vlist none) = .ok nullBytes ∧
    unmarshal testFM nullBytes .listSlot
      = .error (.scanMismatch .tnull .listSlot) := by
  constructor
  · rw [marshal, marshalTo]
  · simp [unmarshal, unmarshalFrom, nullBytes, readToken, isWS, isSep,
      unmarshalNext, tokDelim, Except.map]

/-- C1, amended: for every value built from the supported closed set
(null, bool, float64, string, list, string-keyed map; Raw excluded) whose
lists and maps are all non-nil (present, possibly empty) — a nil list or
map encodes as `null`, which does not decode back into a list/map
destination — with text strings and distinct object keys, decoding the
bytes produced by encoding the value into a destination of the value's
shape yields the value back exactly (which implies equality element-wise
for arrays, as float64 for numbers, and per key for objects). -/
theorem claim1_roundtrip_amended (FM : FloatModel) (v : GoVal FM.F)
    (hw : WF FM v) :
    ∃ bs, marshal FM v = .ok bs ∧ unmarshal FM bs (shapeOf v) = .ok v :=
  roundtripWF FM v hw

/-- C1, witness: the amended round-trip at the concrete value
`[true, 2.0, "a", null]`. -/
theorem claim1_roundtrip_witness :
    ∃ bs, marshal testFM (GoVal.vlist (some [.vbool true, .vfloat (.tfin 2),
        .vstring [97], .vnil])) = .ok bs ∧
      unmarshal testFM bs .listSlot
        = .ok (GoVal.vlist (some [.vbool true, .vfloat (.tfin 2),
            .vstring [97], .vnil])) :=
  claim1_roundtrip_amended testFM
    (GoVal.vlist (some [.vbool true, .vfloat (.tfin 2), .vstring [97], .vnil]))
    (WF.wlist _ (by
      intro v hv
      simp only [List.mem_cons, List.not_mem_nil, or_false] at hv
      rcases hv with h | h | h | h <;> subst h
      · exact WF.wbool true
      · exact WF.wfloat _ ⟨⟨false, [50], none, none⟩, by decide, rfl, rfl⟩
      · exact WF.wstring _ (ValidUtf8.ch 97 (by decide) [] ValidUtf8.nil)
      · exact WF.wnil))

/-- C3: the claim is right and the code is wrong. `RawMessage.MarshalJSON`
does return the stored bytes verbatim (`null` for a nil message), but the
encode entry point never calls it: `marshalTo` has no `Marshaler` check
(only a TODO comment), so a `RawMessage` value matches no case of the type
switch and fails with the unknown-type error instead of emitting its bytes.
Evaluated here at the failing input `Raw("true")` (and the nil Raw). -/
theorem claim3_raw_passthrough_codebug :
    marshal testFM (GoVal.vraw (some trueBytes)) = .error .unknownVal ∧
    marshal testFM (GoVal.vraw none) = .error .unknownVal ∧
    rawMarshalJSON (some trueBytes) = trueBytes ∧
    rawMarshalJSON none = nullBytes := by
  refine ⟨?_, ?_, rfl, rfl⟩ <;> rw [marshal, marshalTo]

/-- C4: a generic (`*interface`) destination accepts only the `null`
token: decoding `null` into it succeeds and stores nil, and any other
leading token — bool, number, string, or any delimiter — fails with the
unable-to-scan TypeError. (Type inference happens only for elements of
list and map destinations, where `newDefaultForToken` is consulted; the
generic case never consults it.) -/
theorem claim4_generic_null_only (FM : FloatModel) (fuel : Nat)
    (r : List Nat) (tok : Token) :
    unmarshalNext FM (fuel + 1) r tok .generic
      = if tok = .tnull then .ok (.vnil, r)
        else .error (.scanMismatch tok .generic) := by
  rw [unmarshalNext.eq_def]

/-- C7: encoding a floating value classified NaN or infinite (of either
sign, at either bit width — the width enters the model only through the
cutoff observations, which the guard does not consult) always fails with
the NumberFormatError, and the error return carries no output bytes: the
Go code returns before its single write to the sink. -/
theorem claim7_nan_inf_rejected (FM : FloatModel) (f : FM.F)
    (h : (FM.isNaN f || FM.isInf f) = true) :
    floatEncode FM f = .error .floatNaNInf := by
  rw [floatEncode, if_pos (by simpa [Bool.or_comm] using h)]

/-- C7, witness: the NaN of the concrete float model is rejected. -/
theorem claim7_nan_inf_witness :
    floatEncode testFM TFloat.tnan = .error .floatNaNInf :=
  claim7_nan_inf_rejected testFM TFloat.tnan (by decide)

/-- C10: decoding into any fixed-width integer destination (all ten
kinds: int, int8..int64, uint, uint8..uint64) always fails with the
unknown-type TypeError regardless of the pending token — those cases are
commented out of `unmarshalNext`'s type switch, so they hit the `default`
branch — while encoding accepts every fixed-width signed and unsigned
integer input, formatting it as exact decimal text: the encode and decode
type sets are asymmetric. -/
theorem claim10_int_dest_rejected :
    (∀ (FM : FloatModel) (fuel : Nat) (r : List Nat) (tok : Token)
      (k : IntKind),
      unmarshalNext FM (fuel + 1) r tok (.intSlot k)
        = .error (.unknownDest (.intSlot k))) ∧
    (∀ (FM : FloatModel) (k : IntKind) (i : Int),
      marshal FM (.vint k i) = .ok (decIntBytes i)) := by
  constructor
  · intro FM fuel r tok k
    rw [unmarshalNext.eq_def]
  · intro FM k i
    rw [marshal, marshalTo]

theorem encStrLoop_flatMap_append (esc : Bool) (cs : List Nat)
    (h : ∀ c ∈ cs, scalarB c = true) (s : List Nat) :
    encStrLoop esc (cs.flatMap encodeChar ++ s)
      = cs.flatMap (escCharSpec esc) ++ encStrLoop esc s := by
  induction cs with
  | nil => simp
  | cons c cs ih =>
      rw [List.flatMap_cons, List.append_assoc,
        encStrLoop_char esc c (h c (by simp)) _,
        ih (fun x hx => h x (by simp [hx])), List.flatMap_cons,
        List.append_assoc]

theorem encStrLoop_invalid (esc : Bool) (b : Nat) (post : List Nat)
    (hb : ¬ b < 0x80) (hinv : decodeRune b post = (0xFFFD, 1)) :
    encStrLoop esc (b :: post) = fffdBytes ++ encStrLoop esc post := by
  rw [encStrLoop, if_neg hb]
  simp only [hinv]
  rw [if_pos (by simp)]

/-- C8: for every text input (a sequence of Unicode scalar values), string
encoding escapes exactly: control bytes below 0x20 as `\u00XX` except tab,
newline, carriage return, which use the short escapes; backslash and
double quote with a backslash; U+2028/U+2029 always as their `\u202X`
escapes; and, only when htmlSafe is set, `<`, `>`, `&` as `<`,
`>`, `&` — every other character is emitted unescaped, as its
UTF-8 bytes (`escCharSpec`, stated from the spec's wording). In
particular the two examples: `encode("\n\t\"\\")` and, with htmlSafe,
`encode("<b>&")`. -/
theorem claim8_string_escaping :
    (∀ (esc : Bool) (cs : List Nat), (∀ c ∈ cs, scalarB c = true) →
      encodeString (cs.flatMap encodeChar) esc
        = 34 :: cs.flatMap (escCharSpec esc) ++ [34]) ∧
    encodeString [10, 9, 34, 92] false
      = [34, 92, 110, 92, 116, 92, 34, 92, 92, 34] ∧
    encodeString [60, 98, 62, 38] true
      = [34, 92, 117, 48, 48, 51, 99, 98, 92, 117, 48, 48, 51, 101,
         92, 117, 48, 48, 50, 54, 34] := by
  refine ⟨?_, ?_, ?_⟩
  · intro esc cs h
    unfold encodeString
    rw [show cs.flatMap encodeChar = cs.flatMap encodeChar ++ [] from by simp,
      encStrLoop_flatMap_append esc cs h []]
    rw [show encStrLoop esc [] = [] from by rw [encStrLoop]]
    simp
  · simp [encodeString, encStrLoop, htmlSafeSet, safeSet, escAscii, hexDig]
  · simp [encodeString, encStrLoop, htmlSafeSet, safeSet, escAscii, hexDig]

/-- C8, witness: the characterization applied at the concrete text
`[U+2028]`. -/
theorem claim8_string_escaping_witness :
    encodeString ([0x2028].flatMap encodeChar) false
      = 34 :: [0x2028].flatMap (escCharSpec false) ++ [34] :=
  claim8_string_escaping.1 false [0x2028] (by decide)

/-- C9: string encoding never fails because of the input bytes: at a
position where the remaining input does not begin a valid UTF-8 encoding
(`decodeRune` yields the replacement pair `(0xFFFD, 1)`), the encoder
writes the replacement-character escape `� ` and proceeds with the
rest of the input; in the pure-sink model the function is total, matching
the source whose only error return is a sink write failure. -/
theorem claim9_invalid_utf8_replaced (esc : Bool) (cs : List Nat) (b : Nat)
    (post : List Nat) (hcs : ∀ c ∈ cs, scalarB c = true) (hb : 0x80 ≤ b)
    (hinv : decodeRune b post = (0xFFFD, 1)) :
    encodeString (cs.flatMap encodeChar ++ b :: post) esc
      = 34 :: (cs.flatMap (escCharSpec esc)
          ++ (fffdBytes ++ encStrLoop esc post)) ++ [34] := by
  unfold encodeString
  rw [encStrLoop_flatMap_append esc cs hcs (b :: post),
    encStrLoop_invalid esc b post (by omega) hinv]

/-- C9, witness: the lone byte 0xFF is replaced and encoding completes. -/
theorem claim9_invalid_utf8_witness :
    encodeString ([].flatMap encodeChar ++ 255 :: []) false
      = 34 :: ([].flatMap (escCharSpec false)
          ++ (fffdBytes ++ encStrLoop false [])) ++ [34] :=
  claim9_invalid_utf8_replaced false [] 255 [] (by simp) (by omega) (by decide)

/-- The byte sequence of the spec's type-inference example: the text
`[1,"a",true,null,` then `"k":2` in braces, then `]`. -/
def c5input : List Nat :=
  [91, 49, 44, 34, 97, 34, 44, 116, 114, 117, 101, 44, 110, 117, 108, 108,
   44, 123, 34, 107, 34, 58, 50, 125, 93]

/-- C5, counterexample: unmarshaling the example input into a generic
(untyped, `*interface`) destination slot does not succeed: the leading
token is the `[` delimiter, and the generic destination accepts only a
`null` token, so the call fails with the unable-to-scan TypeError. -/
theorem claim5_generic_inference_counterexample :
    unmarshal testFM c5input .generic
      = .error (.scanMismatch (.tdelim 91) .generic) := by
  simp [unmarshal, unmarshalFrom, c5input, readToken, isWS, isSep,
    unmarshalNext, Except.map]

/-- C5, amended: unmarshaling the example input into a list
(`*[]interface`) destination succeeds and yields the array
`[Number(1), String("a"), Bool(true), Null, Object("k" maps to Number(2))]`,
each element's concrete type inferred from its leading token (number 1,
string "a", the `true` literal, `null`, and a one-member object). -/
theorem claim5_list_inference_amended (FM : FloatModel) (f1 f2 : FM.F)
    (h1 : FM.parse [49] = some f1) (h2 : FM.parse [50] = some f2) :
    unmarshal FM c5input .listSlot
      = .ok (.vlist (some [.vfloat f1, .vstring [97], .vbool true, .vnil,
          .vmap (some [([107], .vfloat f2)])])) := by
  simp [unmarshal, unmarshalFrom, c5input, readToken, lexStr, lexNum,
    lexFracExp, lexExpPart, takeDigits, isWS, isSep, isDigitB, tokDelim,
    newDefaultForToken, unmarshalNext, unmarshalList, unmarshalMap,
    insertAssoc, h1, h2, Except.map, escShort]

/-- C5, witness: the amended statement at the concrete float model. -/
theorem claim5_list_inference_witness :
    unmarshal testFM c5input .listSlot
      = .ok (.vlist (some [.vfloat (.tfin 1), .vstring [97], .vbool true,
          .vnil, .vmap (some [([107], .vfloat (.tfin 2))])])) :=
  claim5_list_inference_amended testFM (.tfin 1) (.tfin 2) rfl rfl

/-! ## The wrapper backend (model of `Marshal` delegating to `encoding/json`) -/

/-- Lexicographic byte-string comparison: `encoding/json` emits object
members in increasing key order. -/
def ltBytes : List Nat → List Nat → Bool
  | [], [] => false
  | [], _ :: _ => true
  | _ :: _, [] => false
  | a :: as, b :: bs =>
      if a < b then true else if b < a then false else ltBytes as bs

/-- Insertion into a key-sorted association list. -/
def insertPair {A : Type} (kv : List Nat × A) :
    List (List Nat × A) → List (List Nat × A)
  | [] => [kv]
  | kw :: t => if ltBytes kv.1 kw.1 then kv :: kw :: t else kw :: insertPair kv t

/-- Insertion sort by key. -/
def sortPairs {A : Type} : List (List Nat × A) → List (List Nat × A)
  | [] => []
  | kv :: t => insertPair kv (sortPairs t)

mutual

/-- Modelled from the spec: recursively place every object's members in
sorted key order, as the host library emits them (the wrapper backend
replaces map iteration order by sorted key order). -/
def sortVal {F : Type} : GoVal F → GoVal F
  | .vnil => .vnil
  | .vbool b => .vbool b
  | .vfloat f => .vfloat f
  | .vint k i => .vint k i
  | .vstring s => .vstring s
  | .vlist none => .vlist none
  | .vlist (some l) => .vlist (some (sortValList l))
  | .vmap none => .vmap none
  | .vmap (some m) => .vmap (some (sortPairs (sortValPairs m)))
  | .vraw b => .vraw b

/-- Sorted-order normalization of list elements. -/
def sortValList {F : Type} : List (GoVal F) → List (GoVal F)
  | [] => []
  | v :: t => sortVal v :: sortValList t

/-- Sorted-order normalization of member values. -/
def sortValPairs {F : Type} :
    List (List Nat × GoVal F) → List (List Nat × GoVal F)
  | [] => []
  | (k, v) :: t => (k, sortVal v) :: sortValPairs t

end

mutual

/-- Modelled from the spec: the value encoder of the host `encoding/json`
library on the supported closed set — identical to `marshalTo` except that
strings (including keys) are escaped with `escapeHTML = true`, the
library's default (member order is handled by `sortVal`). A `RawMessage`
takes the library's validate-and-compact path, outside the modelled
fragment. -/
def marshalHtml (FM : FloatModel) : GoVal FM.F → Except Err (List Nat)
  | .vnil => .ok nullBytes
  | .vbool b => .ok (if b then trueBytes else falseBytes)
  | .vfloat f => floatEncode FM f
  | .vint _ i => .ok (decIntBytes i)
  | .vstring s => .ok (encodeString s true)
  | .vlist none => .ok nullBytes
  | .vlist (some l) => do
      let body ← htmlItems FM l true
      .ok (91 :: body ++ [93])
  | .vmap none => .ok nullBytes
  | .vmap (some m) => do
      let body ← htmlPairs FM m true
      .ok (123 :: body ++ [125])
  | .vraw _ => .error .notModelled

/-- Element loop of the wrapper's array encoding. -/
def htmlItems (FM : FloatModel) : List (GoVal FM.F) → Bool → Except Err (List Nat)
  | [], _ => .ok []
  | v :: t, first => do
      let bv ← marshalHtml FM v
      let bt ← htmlItems FM t false
      .ok ((if first then [] else [44]) ++ bv ++ bt)

/-- Member loop of the wrapper's object encoding. -/
def htmlPairs (FM : FloatModel) :
    List (List Nat × GoVal FM.F) → Bool → Except Err (List Nat)
  | [], _ => .ok []
  | (k, v) :: t, first => do
      let bv ← marshalHtml FM v
      let bt ← htmlPairs FM t false
      .ok ((if first then [] else [44]) ++ encodeString k true ++ [58] ++ bv ++ bt)

end

/-- Modelled from the spec: the wrapper backend `Marshal` of the
non-tinygo file, which converts a vjson `RawMessage` to the library's and
otherwise delegates to the host `encoding/json` library. -/
def stdMarshal (FM : FloatModel) (v : GoVal FM.F) : Except Err (List Nat) :=
  marshalHtml FM (sortVal v)

/-- No `<`, `>`, or `&` byte occurs in the text. -/
def noHtmlBytes (s : List Nat) : Bool :=
  s.all (fun b => !(b = 60 || b = 62 || b = 38))

/-- The fragment of the closed value set on which the two backends agree
byte for byte: no Raw, text strings and keys free of the HTML-escaped
characters, and objects with at most one member (so member order cannot
differ). -/
inductive Agree (FM : FloatModel) : GoVal FM.F → Prop
  | anil : Agree FM .vnil
  | abool (b : Bool) : Agree FM (.vbool b)
  | afloat (f : FM.F) : Agree FM (.vfloat f)
  | aint (k : IntKind) (i : Int) : Agree FM (.vint k i)
  | astring (s : List Nat) (hu : ValidUtf8 s) (hh : noHtmlBytes s = true) :
      Agree FM (.vstring s)
  | alistnil : Agree FM (.vlist none)
  | alist (l : List (GoVal FM.F)) (h : ∀ v ∈ l, Agree FM v) :
      Agree FM (.vlist (some l))
  | amapnil : Agree FM (.vmap none)
  | amap0 : Agree FM (.vmap (some []))
  | amap1 (k : List Nat) (v : GoVal FM.F) (hu : ValidUtf8 k)
      (hh : noHtmlBytes k = true) (hv : Agree FM v) :
      Agree FM (.vmap (some [(k, v)]))

theorem escCharSpec_esc_eq (c : Nat) (h60 : c ≠ 60) (h62 : c ≠ 62)
    (h38 : c ≠ 38) : escCharSpec true c = escCharSpec false c := by
  unfold escCharSpec
  simp [h60, h62, h38]

theorem noHtmlBytes_append (a b : List Nat) :
    noHtmlBytes (a ++ b) = (noHtmlBytes a && noHtmlBytes b) := by
  simp [noHtmlBytes]

theorem encStrLoop_esc_eq (s : List Nat) (hu : ValidUtf8 s)
    (hh : noHtmlBytes s = true) : encStrLoop true s = encStrLoop false s := by
  induction hu with
  | nil =>
      rw [show encStrLoop true [] = [] from by rw [encStrLoop],
        show encStrLoop false [] = [] from by rw [encStrLoop]]
  | ch c hc s' hs ih =>
      rw [noHtmlBytes_append, Bool.and_eq_true] at hh
      rw [encStrLoop_char true c hc s', encStrLoop_char false c hc s']
      have hch : escCharSpec true c = escCharSpec false c := by
        by_cases hlt : c < 128
        · have hb := hh.1
          rw [encodeChar_ascii c hlt] at hb
          simp only [noHtmlBytes, List.all_cons, List.all_nil, Bool.and_true,
            Bool.not_eq_true', Bool.or_eq_false_iff,
            decide_eq_false_iff_not] at hb
          exact escCharSpec_esc_eq c hb.1.1 hb.1.2 hb.2
        · exact escCharSpec_esc_eq c (by omega) (by omega) (by omega)
      rw [hch, ih hh.2]

theorem encodeString_esc_eq (s : List Nat) (hu : ValidUtf8 s)
    (hh : noHtmlBytes s = true) : encodeString s true = encodeString s false := by
  unfold encodeString
  rw [encStrLoop_esc_eq s hu hh]

theorem htmlItems_eq (FM : FloatModel) (l : List (GoVal FM.F))
    (ih : ∀ v ∈ l, marshalHtml FM (sortVal v) = marshalTo FM v) :
    ∀ first, htmlItems FM (sortValList l) first = marshalItems FM l first := by
  induction l with
  | nil => intro first; rw [sortValList, htmlItems, marshalItems]
  | cons v t iht =>
      intro first
      rw [sortValList, htmlItems, marshalItems, ih v (by simp),
        iht (fun w hw => ih w (by simp [hw])) false]

/-- C2: the two encode paths are not byte-identical on the closed set —
the hand-rolled engine writes `<` raw while the wrapper over the host
library HTML-escapes it (the wrapper also sorts object members, which the
hand-rolled engine does not). -/
theorem claim2_backends_counterexample :
    marshal testFM (GoVal.vstring [60]) = .ok [34, 60, 34]
    ∧ stdMarshal testFM (GoVal.vstring [60])
        = .ok [34, 92, 117, 48, 48, 51, 99, 34]
    ∧ ([34, 60, 34] : List Nat) ≠ [34, 92, 117, 48, 48, 51, 99, 34] := by
  refine ⟨?_, ?_, by decide⟩
  · rw [marshal, marshalTo]
    simp [encodeString, encStrLoop, htmlSafeSet, safeSet, escAscii, hexDig]
  · rw [stdMarshal, sortVal, marshalHtml]
    simp [encodeString, encStrLoop, htmlSafeSet, safeSet, escAscii, hexDig]

/-- C2, amended: on the fragment where the documented divergences cannot
show — no Raw, no `<`/`>`/`&` byte in any text or key, and at most one
member per object — the wrapper backend and the hand-rolled engine produce
byte-identical output. -/
theorem claim2_backends_amended (FM : FloatModel) (v : GoVal FM.F)
    (ha : Agree FM v) : stdMarshal FM v = marshal FM v := by
  unfold stdMarshal marshal
  induction ha with
  | anil => rw [sortVal, marshalHtml, marshalTo]
  | abool b => rw [sortVal, marshalHtml, marshalTo]
  | afloat f => rw [sortVal, marshalHtml, marshalTo]
  | aint k i => rw [sortVal, marshalHtml, marshalTo]
  | astring s hu hh =>
      rw [sortVal, marshalHtml, marshalTo, encodeString_esc_eq s hu hh]
  | alistnil => rw [sortVal, marshalHtml, marshalTo]
  | alist l h ih =>
      rw [sortVal, marshalHtml, marshalTo, htmlItems_eq FM l ih true]
  | amapnil => rw [sortVal, marshalHtml, marshalTo]
  | amap0 =>
      rw [sortVal]
      dsimp only [sortValPairs, sortPairs]
      rw [marshalHtml, marshalTo, htmlPairs, marshalPairs]
  | amap1 k v hu hh hv ihv =>
      rw [sortVal]
      dsimp only [sortValPairs, sortPairs, insertPair]
      rw [marshalHtml, marshalTo]
      have hp : htmlPairs FM [(k, sortVal v)] true = marshalPairs FM [(k, v)] true := by
        rw [htmlPairs, marshalPairs, ihv, htmlPairs, marshalPairs,
          encodeString_esc_eq k hu hh]
      rw [hp]

/-- C2, witness for the amended statement: a one-member object holding a
plain string, where both backends emit the same bytes. -/
theorem claim2_backends_witness :
    stdMarshal testFM (GoVal.vmap (some [([107], GoVal.vstring [97])]))
      = marshal testFM (GoVal.vmap (some [([107], GoVal.vstring [97])])) :=
  claim2_backends_amended testFM _
    (Agree.amap1 [107] (GoVal.vstring [97])
      (ValidUtf8.ch 107 (by decide) [] ValidUtf8.nil) (by decide)
      (Agree.astring [97] (ValidUtf8.ch 97 (by decide) [] ValidUtf8.nil)
        (by decide)))
